import Mathlib

/-!
# Formula generator (`util/cmd/main.go`): a shallow embedding

The program reads a list of repositories, lists the releases of each with
`gh release list`, and starts one goroutine per release that looks the release
up with `gh release view`, downloads the tarball, hashes it, renders a template
and writes `./Formula/<name>@<digits>.rb` (and `./Formula/<name>.rb` for the
release flagged latest).

Conventions of the embedding:

* Go strings are Lean `String`s (sequences of runes); byte slices are lists of
  naturals (`Bytes`), every element meant to be below 256.
* The external collaborators (the `gh` subprocesses, the JSON decoder, the HTTP
  client, the template engine and the file system calls) are fields of a
  `World`: functions from the arguments of the call to its Go results. A Go
  result pair `(value, err)` is a Lean pair whose second component is the
  `error` (`none` for `nil`).
* `logger.Fatal` ends the process (`os.Exit(1)`); a nil dereference or an index
  out of range is a `panic`. Both are an `Exit`.
* The goroutines of one repository are small-step machines over the state they
  share (the variable `err` of the loop body that every closure captures, the
  file system, the log of external calls); a schedule, a list of task numbers,
  says which goroutine takes the next step.
* No signal arrives during a run: the context that `exec.CommandContext` gets
  is never cancelled.
-/

namespace FormulaGen

/-! ## Regular expressions: `regexp.MustCompile` and `ReplaceAllString` -/

/-- The fragment of Go's regular expression syntax that `main` uses. -/
inductive Regex where
  | beginText : Regex
  | lit : Char → Regex
  | notRange : Char → Char → Regex
  | capture : Regex → Regex
  | concat : Regex → Regex → Regex
  | alternate : Regex → Regex → Regex
  | plus : Regex → Regex
deriving Repr

/-- A thread of the backtracking matcher: the position reached and the input
that is left there. -/
abbrev Thread := Nat × List Char

/-- Greedy repetition, one or more times: after each match of the body try the
loop again before stopping there. A body match that consumed nothing is not
repeated. -/
def plusLoop (body : Nat → List Char → List Thread) : Nat → Nat → List Char → List Thread
  | 0, _, _ => []
  | fuel + 1, pos, rest =>
    (body pos rest).flatMap fun th =>
      (if pos < th.1 then plusLoop body fuel th.1 th.2 else []) ++ [th]

/-- All the ways the expression matches at `pos`, in the order of preference of
Go's leftmost-first (Perl) semantics: the first alternative before the second,
more repetitions before fewer. -/
def Regex.run : Regex → Nat → List Char → List Thread
  | .beginText, pos, rest => if pos = 0 then [(pos, rest)] else []
  | .lit c, pos, rest =>
    match rest with
    | [] => []
    | x :: xs => if x = c then [(pos + 1, xs)] else []
  | .notRange lo hi, pos, rest =>
    match rest with
    | [] => []
    | x :: xs => if lo ≤ x ∧ x ≤ hi then [] else [(pos + 1, xs)]
  | .capture r, pos, rest => r.run pos rest
  | .concat r s, pos, rest => (r.run pos rest).flatMap fun th => s.run th.1 th.2
  | .alternate r s, pos, rest => r.run pos rest ++ s.run pos rest
  | .plus r, pos, rest => plusLoop (fun p t => r.run p t) (rest.length + 1) pos rest

/-- The end of the preferred match that starts exactly at `pos`. -/
def Regex.matchAt (re : Regex) (pos : Nat) (rest : List Char) : Option Nat :=
  ((re.run pos rest).head?).map Prod.fst

/-- The leftmost match that starts at `pos` or later (`doExecute`): the pair
of its start and end. `rest` is the input from `pos` on. -/
def Regex.find (re : Regex) : Nat → List Char → Option (Nat × Nat)
  | pos, [] => (re.matchAt pos []).map fun e => (pos, e)
  | pos, c :: cs =>
    match re.matchAt pos (c :: cs) with
    | some e => some (pos, e)
    | none => re.find (pos + 1) cs

/-- The loop of `Regexp.replaceAll` over runes; `lastMatchEnd`, `searchPos`
and `buf` are the variables of the Go function. -/
def replaceAllLoop (re : Regex) (src repl : List Char) :
    Nat → Nat → Nat → List Char → List Char
  | 0, lastMatchEnd, _, buf => buf ++ src.drop lastMatchEnd
  | fuel + 1, lastMatchEnd, searchPos, buf =>
    if searchPos ≤ src.length then
      match re.find searchPos (src.drop searchPos) with
      | none => buf ++ src.drop lastMatchEnd
      | some (a0, a1) =>
        let buf1 := buf ++ (src.drop lastMatchEnd).take (a0 - lastMatchEnd)
        let buf2 := if a1 > lastMatchEnd ∨ a0 = 0 then buf1 ++ repl else buf1
        let width := if searchPos < src.length then 1 else 0
        let searchPos1 :=
          if searchPos + width > a1 then searchPos + width
          else if searchPos + 1 > a1 then searchPos + 1
          else a1
        replaceAllLoop re src repl fuel a1 searchPos1 buf2
    else buf ++ src.drop lastMatchEnd

/-- The method `(*Regexp).ReplaceAllString` for a replacement without `$`. -/
def ReplaceAllString (re : Regex) (src repl : String) : String :=
  String.mk (replaceAllLoop re src.data repl.data (src.length + 2) 0 0 [])

/-- The expression `^(-)|[^0-9]+` as `regexp.MustCompile` parses it. -/
def regExp : Regex :=
  .alternate (.concat .beginText (.capture (.lit '-'))) (.plus (.notRange '0' '9'))

/-- The version token of a tag: `regExp.ReplaceAllString(view.TagName, "")`. -/
def versionToken (tagName : String) : String :=
  ReplaceAllString regExp tagName ""

/-- A rune is an ASCII digit. -/
def isDigit (c : Char) : Bool := decide ('0' ≤ c ∧ c ≤ '9')

/-- The tag with one leading `-` stripped when there is one. -/
def stripLeadingDash : List Char → List Char
  | '-' :: cs => cs
  | cs => cs

/-! ## `strings.Split` -/

/-- The pieces of `strings.Split(s, sep)` for a separator of one rune;
`cur` holds the piece being read, reversed. -/
def splitAux (sep : Char) : List Char → List Char → List (List Char)
  | [], cur => [cur.reverse]
  | c :: cs, cur =>
    if c = sep then cur.reverse :: splitAux sep cs [] else splitAux sep cs (c :: cur)

/-- The call `strings.Split(s, "/")`. -/
def Split (s : String) : List String :=
  (splitAux '/' s.data []).map String.mk


/-! ## `crypto/sha256` and the verb `%x` -/

/-- A byte slice. -/
abbrev Bytes := List Nat

/-- The round constants of SHA-256 (the table `_K` of `crypto/sha256`). -/
def sha256K : List Nat :=
  [1116352408, 1899447441, 3049323471, 3921009573, 961987163, 1508970993,
   2453635748, 2870763221, 3624381080, 310598401, 607225278, 1426881987,
   1925078388, 2162078206, 2614888103, 3248222580, 3835390401, 4022224774,
   264347078, 604807628, 770255983, 1249150122, 1555081692, 1996064986,
   2554220882, 2821834349, 2952996808, 3210313671, 3336571891, 3584528711,
   113926993, 338241895, 666307205, 773529912, 1294757372, 1396182291,
   1695183700, 1986661051, 2177026350, 2456956037, 2730485921, 2820302411,
   3259730800, 3345764771, 3516065817, 3600352804, 4094571909, 275423344,
   430227734, 506948616, 659060556, 883997877, 958139571, 1322822218,
   1537002063, 1747873779, 1955562222, 2024104815, 2227730452, 2361852424,
   2428436474, 2756734187, 3204031479, 3329325298]

/-- The initial hash value of SHA-256. -/
def sha256Init : List Nat :=
  [1779033703, 3144134277, 1013904242, 2773480762,
   1359893119, 2600822924, 528734635, 1541459225]

/-- Rotation of a 32-bit word to the right. -/
def rotr (x n : Nat) : Nat := ((x >>> n) ||| (x <<< (32 - n))) % 2 ^ 32

/-- Addition of 32-bit words. -/
def add32 (x y : Nat) : Nat := (x + y) % 2 ^ 32

/-- The padded message: the byte 128, zeros up to 56 modulo 64, and the length
in bits as eight bytes, most significant first. -/
def sha256Pad (msg : Bytes) : Bytes :=
  let bits := 8 * msg.length
  msg.map (· % 256) ++ [128] ++ List.replicate ((119 - msg.length % 64) % 64) 0
    ++ (List.range 8).map fun i => (bits >>> (8 * (7 - i))) % 256

/-- The big-endian 32-bit words of a byte sequence. -/
def toWords : Nat → Bytes → List Nat
  | 0, _ => []
  | n + 1, bs =>
    (bs.getD 0 0 * 2 ^ 24 + bs.getD 1 0 * 2 ^ 16 + bs.getD 2 0 * 2 ^ 8 + bs.getD 3 0)
      :: toWords n (bs.drop 4)

/-- The message schedule: `n` more words after the ones in `w`. -/
def sha256Extend : Nat → List Nat → List Nat
  | 0, w => w
  | n + 1, w =>
    let i := w.length
    let w15 := w.getD (i - 15) 0
    let w2 := w.getD (i - 2) 0
    let s0 := rotr w15 7 ^^^ rotr w15 18 ^^^ (w15 >>> 3)
    let s1 := rotr w2 17 ^^^ rotr w2 19 ^^^ (w2 >>> 10)
    sha256Extend n (w ++ [add32 (add32 (add32 (w.getD (i - 16) 0) s0) (w.getD (i - 7) 0)) s1])

/-- The working variables `a` to `h`. -/
structure Sha256Vars where
  a : Nat
  b : Nat
  c : Nat
  d : Nat
  e : Nat
  f : Nat
  g : Nat
  h : Nat

/-- One round of the compression function with the constant `k` and the
schedule word `w`. -/
def sha256Round (v : Sha256Vars) (k w : Nat) : Sha256Vars :=
  let t1 := add32 (add32 (add32 (add32 v.h (rotr v.e 6 ^^^ rotr v.e 11 ^^^ rotr v.e 25))
    ((v.e &&& v.f) ^^^ ((v.e ^^^ (2 ^ 32 - 1)) &&& v.g))) k) w
  let t2 := add32 (rotr v.a 2 ^^^ rotr v.a 13 ^^^ rotr v.a 22)
    ((v.a &&& v.b) ^^^ (v.a &&& v.c) ^^^ (v.b &&& v.c))
  ⟨add32 t1 t2, v.a, v.b, v.c, add32 v.d t1, v.e, v.f, v.g⟩

/-- The hash value after one more block of 64 bytes. -/
def sha256Block (hs : List Nat) (block : Bytes) : List Nat :=
  let w := sha256Extend 48 (toWords 16 block)
  let v0 : Sha256Vars := ⟨hs.getD 0 0, hs.getD 1 0, hs.getD 2 0, hs.getD 3 0,
    hs.getD 4 0, hs.getD 5 0, hs.getD 6 0, hs.getD 7 0⟩
  let v := (List.zip sha256K w).foldl (fun v kw => sha256Round v kw.1 kw.2) v0
  [add32 (hs.getD 0 0) v.a, add32 (hs.getD 1 0) v.b, add32 (hs.getD 2 0) v.c,
   add32 (hs.getD 3 0) v.d, add32 (hs.getD 4 0) v.e, add32 (hs.getD 5 0) v.f,
   add32 (hs.getD 6 0) v.g, add32 (hs.getD 7 0) v.h]

/-- The hash value after `n` blocks of the padded message. -/
def sha256Blocks : Nat → List Nat → Bytes → List Nat
  | 0, hs, _ => hs
  | n + 1, hs, padded => sha256Blocks n (sha256Block hs (padded.take 64)) (padded.drop 64)

/-- The four bytes of a 32-bit word, most significant first. -/
def wordBytes (x : Nat) : Bytes :=
  [(x >>> 24) % 256, (x >>> 16) % 256, (x >>> 8) % 256, x % 256]

/-- The digest of a message: `hash.Write(msg)` on a new hash and then
`hash.Sum(nil)`. -/
def Sum256 (msg : Bytes) : Bytes :=
  let padded := sha256Pad msg
  let hs := sha256Blocks (padded.length / 64) sha256Init padded
  [wordBytes (hs.getD 0 0), wordBytes (hs.getD 1 0), wordBytes (hs.getD 2 0),
   wordBytes (hs.getD 3 0), wordBytes (hs.getD 4 0), wordBytes (hs.getD 5 0),
   wordBytes (hs.getD 6 0), wordBytes (hs.getD 7 0)].flatten

/-- The digits of lowercase hexadecimal. -/
def hexDigits : List Char := "0123456789abcdef".data

/-- The two lowercase hexadecimal digits of a byte. -/
def hexByte (b : Nat) : List Char :=
  [hexDigits.getD (b / 16 % 16) '0', hexDigits.getD (b % 16) '0']

/-- The call `fmt.Sprintf("%x", bs)` on a byte slice. -/
def Sprintf_x (bs : Bytes) : String :=
  String.mk (bs.flatMap hexByte)

/-! ## The data of `main` -/

/-- One entry of `config.yaml`. -/
structure ConfigRepository where
  Repository : String
  TemplateFileName : String
deriving DecidableEq

/-- The content of `config.yaml`; an element can be `nil`. -/
structure Config where
  Repositories : List (Option ConfigRepository)

/-- One element of the output of `gh release list`; the times are kept as
the strings of the JSON document. -/
structure ReleaseShortView where
  CreatedAt : String
  IsDraft : Bool
  IsLatest : Bool
  IsPrerelease : Bool
  Name : String
  PublishedAt : String
  TagName : String
  TarballUrl : String
  TarballUrlSHA256 : String
  Prefix : String
deriving DecidableEq

/-- The output of `gh release view --json tarballUrl`. -/
structure ReleaseView where
  TarballUrl : String
deriving DecidableEq

/-- How the process ends before `main` returns: `logger.Fatal` (which calls
`os.Exit(1)`) with its message, or a run-time panic. -/
inductive Exit where
  | fatal : String → Exit
  | panic : String → Exit
deriving DecidableEq

/-- What `cmd.Run()` leaves: its error and the two buffers. -/
structure CmdResult where
  err : Option String
  stdout : String
  stderr : String

/-- An HTTP response: the status code and what `io.ReadAll(resp.Body)` gives. -/
structure Response where
  StatusCode : Nat
  Body : Except String Bytes

/-- The collaborators of the program. `NewProduction`, `ParseFiles`, `osCreate`
and `fileClose` give the error of the call; `ReadFile` gives the bytes and the
error; `fileWrite` gives the number of bytes written and the error; the
decoders give the value left in the target and the error. -/
structure World where
  NewProduction : Option String
  ReadFile : String → Bytes × Option String
  yamlUnmarshal : Bytes → Config × Option String
  ParseFiles : String → Option String
  ghReleaseList : String → CmdResult
  unmarshalShortViews : String → List (Option ReleaseShortView) × Option String
  ghReleaseView : String → String → CmdResult
  unmarshalView : String → Option ReleaseView × Option String
  httpGet : String → Except String Response
  Execute : String → ReleaseShortView → Bytes × Option String
  osCreate : String → Option String
  fileWrite : String → Bytes → Nat × Option String
  fileClose : String → Option String

/-- The function `GetUrlFileHashSHA256`: the digest in hexadecimal and the
error. The status code of the response is not looked at. -/
def GetUrlFileHashSHA256 (w : World) (url : String) : String × Option String :=
  match w.httpGet url with
  | .error e => ("", some e)
  | .ok resp =>
    match resp.Body with
    | .error e => ("", some e)
    | .ok slice => (Sprintf_x (Sum256 slice), none)

/-! ## The file system -/

/-- The files, by name. -/
abbrev FileSystem := List (String × Bytes)

/-- The content of a file. -/
def readFile : FileSystem → String → Option Bytes
  | [], _ => none
  | (n, d) :: fs, fileName => if n = fileName then some d else readFile fs fileName

/-- The file system with the content of one file replaced. -/
def putFile (fs : FileSystem) (fileName : String) (data : Bytes) : FileSystem :=
  (fileName, data) :: fs.filter fun e => decide (e.1 ≠ fileName)

/-- The content of a file after `n` bytes of `data` were written at its start. -/
def writeAt0 (old : Option Bytes) (data : Bytes) (n : Nat) : Bytes :=
  data.take n ++ (old.getD []).drop n

/-- The function `WriteFile` when nothing else runs between its calls: the
files it leaves and, when a call fails, the end of the process. -/
def WriteFile (w : World) (fs : FileSystem) (fileName : String) (data : Bytes) :
    FileSystem × Option Exit :=
  match w.osCreate fileName with
  | some _ => (fs, some (.fatal "Error creating file"))
  | none =>
    let fs1 := putFile fs fileName []
    let r := w.fileWrite fileName data
    match r.2 with
    | some _ =>
      (putFile fs1 fileName (writeAt0 (readFile fs1 fileName) data r.1),
        some (.fatal "Error writing file"))
    | none =>
      let fs2 := putFile fs1 fileName (writeAt0 (readFile fs1 fileName) data data.length)
      match w.fileClose fileName with
      | some _ => (fs2, some (.fatal "Error closing file"))
      | none => (fs2, none)

/-! ## The goroutine of one release -/

/-- The external calls the program makes, with the number of the goroutine
that makes them. -/
inductive Event where
  | releaseList : String → Event
  | releaseView : Nat → String → String → Event
  | httpGet : Nat → String → Event
  | create : Nat → String → Event
deriving DecidableEq

/-- The points of the goroutine between which another goroutine can run: the
call and the test of `if err = f(); err != nil` are two steps, because `err`
is the variable of the loop body that all the goroutines share; `WriteFile`
is the three calls `os.Create`, `file.Write` and the deferred `file.Close`. -/
inductive Pc where
  | runView
  | checkView
  | unmarshal
  | checkUnmarshal
  | checkUrl
  | hash
  | checkHash
  | execute
  | createVersioned
  | writeVersioned
  | closeVersioned
  | createAlias
  | writeAlias
  | closeAlias
  | done
deriving DecidableEq

/-- The position of a point in the body of the goroutine. -/
def Pc.rank : Pc → Nat
  | .runView => 0
  | .checkView => 1
  | .unmarshal => 2
  | .checkUnmarshal => 3
  | .checkUrl => 4
  | .hash => 5
  | .checkHash => 6
  | .execute => 7
  | .createVersioned => 8
  | .writeVersioned => 9
  | .closeVersioned => 10
  | .createAlias => 11
  | .writeAlias => 12
  | .closeAlias => 13
  | .done => 14

/-- The variables of one goroutine: `view` (the record the pointer refers to),
the two buffers of `cmdView`, `modelView` and the rendered `buf`. -/
structure TaskState where
  pc : Pc
  view : ReleaseShortView
  stdout : String
  stderr : String
  modelView : Option ReleaseView
  buf : Bytes

/-- The state of the process while the goroutines of one repository run. -/
structure Proc where
  err : Option String
  fs : FileSystem
  trace : List Event
  tasks : List TaskState
  exit : Option Exit

/-- The name of the versioned file (line 270). -/
def versionedFileName (configFileName tagName : String) : String :=
  "./Formula/" ++ configFileName ++ "@" ++ versionToken tagName ++ ".rb"

/-- The name of the alias file (line 274). -/
def aliasFileName (configFileName : String) : String :=
  "./Formula/" ++ configFileName ++ ".rb"

/-- The call of `logger.Fatal`. -/
def Proc.fatal (p : Proc) (msg : String) : Proc :=
  { p with exit := some (.fatal msg) }

/-- The goroutine `i` goes on in state `t`. -/
def Proc.setTask (p : Proc) (i : Nat) (t : TaskState) : Proc :=
  { p with tasks := p.tasks.set i t }

/-- The call `os.Create(fileName)` of `WriteFile`. -/
def stepCreate (w : World) (i : Nat) (t : TaskState) (fileName : String) (next : Pc)
    (p : Proc) : Proc :=
  let p1 : Proc := { p with trace := p.trace ++ [Event.create i fileName] }
  match w.osCreate fileName with
  | some _ => p1.fatal "Error creating file"
  | none => Proc.setTask { p1 with fs := putFile p.fs fileName [] } i { t with pc := next }

/-- The call `file.Write(data)` of `WriteFile`. -/
def stepWrite (w : World) (i : Nat) (t : TaskState) (fileName : String) (next : Pc)
    (p : Proc) : Proc :=
  let r := w.fileWrite fileName t.buf
  match r.2 with
  | some _ =>
    Proc.fatal
      { p with fs := putFile p.fs fileName (writeAt0 (readFile p.fs fileName) t.buf r.1) }
      "Error writing file"
  | none =>
    let data := writeAt0 (readFile p.fs fileName) t.buf t.buf.length
    Proc.setTask { p with fs := putFile p.fs fileName data } i { t with pc := next }

/-- The deferred `file.Close()` of `WriteFile`. -/
def stepClose (w : World) (i : Nat) (t : TaskState) (fileName : String) (next : Pc)
    (p : Proc) : Proc :=
  match w.fileClose fileName with
  | some _ => p.fatal "Error closing file"
  | none => p.setTask i { t with pc := next }

/-- One step of the goroutine `i`, which is in state `t` (lines 194 to 276). -/
def stepTask (w : World) (repo : ConfigRepository) (configFileName : String) (i : Nat)
    (t : TaskState) (p : Proc) : Proc :=
  match t.pc with
  | .runView =>
    let r := w.ghReleaseView t.view.Name repo.Repository
    Proc.setTask
      { p with err := r.err,
               trace := p.trace ++ [Event.releaseView i t.view.Name repo.Repository] }
      i { t with pc := .checkView, stdout := r.stdout, stderr := r.stderr }
  | .checkView =>
    match p.err with
    | some _ => p.fatal "can not get release view"
    | none => p.setTask i { t with pc := .unmarshal }
  | .unmarshal =>
    let r := w.unmarshalView t.stdout
    Proc.setTask { p with err := r.2 } i { t with pc := .checkUnmarshal, modelView := r.1 }
  | .checkUnmarshal =>
    match p.err with
    | some _ => p.fatal "can not unmarshal release view"
    | none => p.setTask i { t with pc := .checkUrl }
  | .checkUrl =>
    match t.modelView with
    | none => { p with exit := some (.panic "nil pointer dereference") }
    | some modelView =>
      if modelView.TarballUrl = "" then p.fatal "TarballUrl is empty"
      else p.setTask i
        { t with pc := .hash, view := { t.view with TarballUrl := modelView.TarballUrl } }
  | .hash =>
    match t.modelView with
    | none => { p with exit := some (.panic "nil pointer dereference") }
    | some modelView =>
      let r := GetUrlFileHashSHA256 w modelView.TarballUrl
      Proc.setTask
        { p with err := r.2, trace := p.trace ++ [Event.httpGet i modelView.TarballUrl] }
        i { t with pc := .checkHash, view := { t.view with TarballUrlSHA256 := r.1 } }
  | .checkHash =>
    match p.err with
    | some _ => p.fatal "can not get sha256 TarballUrl"
    | none => p.setTask i { t with pc := .execute }
  | .execute =>
    let r := w.Execute repo.TemplateFileName t.view
    match r.2 with
    | some _ => p.fatal "Error executing template"
    | none => p.setTask i { t with pc := .createVersioned, buf := r.1 }
  | .createVersioned =>
    stepCreate w i t (versionedFileName configFileName t.view.TagName) .writeVersioned p
  | .writeVersioned =>
    stepWrite w i t (versionedFileName configFileName t.view.TagName) .closeVersioned p
  | .closeVersioned =>
    stepClose w i t (versionedFileName configFileName t.view.TagName)
      (if t.view.IsLatest then .createAlias else .done) p
  | .createAlias => stepCreate w i t (aliasFileName configFileName) .writeAlias p
  | .writeAlias => stepWrite w i t (aliasFileName configFileName) .closeAlias p
  | .closeAlias => stepClose w i t (aliasFileName configFileName) .done p
  | .done => p

/-- The scheduler lets the goroutine `i` take a step. Nothing happens when the
process has ended, when there is no such goroutine, or when it has returned. -/
def Proc.step (w : World) (repo : ConfigRepository) (configFileName : String)
    (p : Proc) (i : Nat) : Proc :=
  match p.exit with
  | some _ => p
  | none =>
    match p.tasks[i]? with
    | none => p
    | some t => stepTask w repo configFileName i t p

/-- The goroutines run as the schedule says. -/
def runSchedule (w : World) (repo : ConfigRepository) (configFileName : String)
    (p : Proc) (sched : List Nat) : Proc :=
  sched.foldl (Proc.step w repo configFileName) p

/-! ## The body of the loop over the repositories -/

/-- The loop of lines 175 to 181: the last release flagged latest, or a panic
at an element that is `nil`. -/
def latestLoop : List (Option ReleaseShortView) → Option ReleaseShortView →
    Except Exit (Option ReleaseShortView)
  | [], latest => .ok latest
  | none :: _, _ => .error (.panic "nil pointer dereference")
  | some releaseView :: rest, latest =>
    latestLoop rest (if releaseView.IsLatest then some releaseView else latest)

/-- The last element of `strings.Split(repository, "/")` (lines 112 and 113);
`none` is an index out of range. -/
def lastSegment (repository : String) : Option String :=
  let split := Split repository
  split[split.length - 1]?

/-- Lines 112 to 185: everything before the goroutines start. The result is
the calls made and either the end of the process or `configFileName` and the
releases. -/
def setup (w : World) (repo : ConfigRepository) :
    List Event × Except Exit (String × List ReleaseShortView) :=
  match lastSegment repo.Repository with
  | none => ([], .error (.panic "index out of range"))
  | some configFileName =>
    match w.ParseFiles repo.TemplateFileName with
    | some _ => ([], .error (.fatal "Error parsing template"))
    | none =>
      let r := w.ghReleaseList repo.Repository
      match r.err with
      | some _ => ([.releaseList repo.Repository], .error (.fatal "Error running command"))
      | none =>
        let u := w.unmarshalShortViews r.stdout
        match u.2 with
        | some _ =>
          ([.releaseList repo.Repository], .error (.fatal "Error parsing release views"))
        | none =>
          if u.1.length = 0 then
            ([.releaseList repo.Repository], .error (.fatal "no release views found"))
          else
            match latestLoop u.1 none with
            | .error e => ([.releaseList repo.Repository], .error e)
            | .ok none =>
              ([.releaseList repo.Repository], .error (.fatal "no latest release found"))
            | .ok (some _) =>
              ([.releaseList repo.Repository], .ok (configFileName, u.1.filterMap id))

/-- The state of a goroutine when it starts. -/
def newTask (view : ReleaseShortView) : TaskState :=
  { pc := .runView, view := view, stdout := "", stderr := "", modelView := none, buf := [] }

/-- How far the program got. `running`: the schedule ended while goroutines
still had steps to take. -/
inductive Status where
  | done
  | exited : Exit → Status
  | running
deriving DecidableEq

/-- What a run leaves behind. -/
structure Outcome where
  fs : FileSystem
  trace : List Event
  status : Status

/-- The process when the goroutines of a repository start: `err` is `nil`
after the last test of the setup. -/
def spawn (fs : FileSystem) (trace : List Event) (views : List ReleaseShortView) : Proc :=
  { err := none, fs := fs, trace := trace, tasks := views.map newTask, exit := none }

/-- Every goroutine has returned: `releaseViewsUpdateSyncGroup.Wait()` returns. -/
def allDone (p : Proc) : Bool :=
  p.tasks.all fun t => decide (t.pc = .done)

/-- One iteration of the loop over the repositories (lines 111 to 280). -/
def runRepository (w : World) (repo : ConfigRepository) (sched : List Nat)
    (fs : FileSystem) : Outcome :=
  match setup w repo with
  | (tr, .error e) => ⟨fs, tr, .exited e⟩
  | (tr, .ok (configFileName, views)) =>
    let p := runSchedule w repo configFileName (spawn fs tr views) sched
    match p.exit with
    | some e => ⟨p.fs, p.trace, .exited e⟩
    | none => ⟨p.fs, p.trace, if allDone p then .done else .running⟩

/-- The loop over `config.Repositories` (lines 111 to 280); the schedules are
those of the goroutines of each repository. -/
def mainLoop (w : World) : List (Option ConfigRepository) → List (List Nat) → FileSystem →
    List Event → Outcome
  | [], _, fs, tr => ⟨fs, tr, .done⟩
  | none :: _, _, fs, tr => ⟨fs, tr, .exited (.panic "nil pointer dereference")⟩
  | some repo :: repos, scheds, fs, tr =>
    let o := runRepository w repo (scheds.headD []) fs
    match o.status with
    | .done => mainLoop w repos scheds.tail o.fs (tr ++ o.trace)
    | s => ⟨o.fs, tr ++ o.trace, s⟩

/-- The function `main`, started with the files `fs`. -/
def main (w : World) (scheds : List (List Nat)) (fs : FileSystem) : Outcome :=
  match w.NewProduction with
  | some e => ⟨fs, [], .exited (.panic e)⟩
  | none =>
    let r := w.ReadFile "./util/config/config.yaml"
    match r.2 with
    | some _ => ⟨fs, [], .exited (.fatal "Error reading config.json")⟩
    | none =>
      let c := w.yamlUnmarshal r.1
      match c.2 with
      | some _ => ⟨fs, [], .exited (.fatal "Error parsing config.json")⟩
      | none => mainLoop w c.1.Repositories scheds fs []

/-! ## Notions used in the statements -/

/-- The length of a message in bits as the eight bytes that end the padding,
most significant first. -/
def lengthBytes (bits : Nat) : Bytes :=
  (List.range 8).map fun i => (bits >>> (8 * (7 - i))) % 256

/-- The block number `i` of a padded message, blocks being 64 bytes long. -/
def blockAt (padded : Bytes) (i : Nat) : Bytes :=
  (padded.drop (64 * i)).take 64

/-- The hash value of the standard after the first `i` blocks: `H(0)` is `hs`
and `H(i+1)` comes from `H(i)` and the block number `i`. -/
def hashAfter (hs : List Nat) (padded : Bytes) : Nat → List Nat
  | 0 => hs
  | i + 1 => sha256Block (hashAfter hs padded i) (blockAt padded i)

/-- The 32 bytes of a hash value of eight words, each word most significant
byte first. -/
def digestBytes (hs : List Nat) : Bytes :=
  (List.range 8).flatMap fun k => wordBytes (hs.getD k 0)

/-- The number that a sequence of bytes spells, most significant first. -/
def bigEndian (bs : Bytes) : Nat :=
  bs.foldl (fun acc b => acc * 256 + b) 0

/-- The fields of a release that no step of its goroutine changes. -/
def keyOf (t : TaskState) : String × String × Bool :=
  (t.view.Name, t.view.TagName, t.view.IsLatest)

/-- A lowercase hexadecimal digit. -/
def isLowerHex (c : Char) : Prop :=
  ('0' ≤ c ∧ c ≤ '9') ∨ ('a' ≤ c ∧ c ≤ 'f')

/-- The fields of a listed release that its goroutine never changes. -/
def viewKey (v : ReleaseShortView) : String × String × Bool :=
  (v.Name, v.TagName, v.IsLatest)

/-- What a goroutine knows at each point: the output of its own
`gh release view` once it ran, and the decoded `modelView` once it was decoded. -/
def LocalOk (w : World) (repo : ConfigRepository) (t : TaskState) : Prop :=
  (0 < t.pc.rank → t.stdout = (w.ghReleaseView t.view.Name repo.Repository).stdout) ∧
  (2 < t.pc.rank → t.modelView = (w.unmarshalView t.stdout).1)

/-- The external call `ev` is one that the goroutine `i`, now in state `t`,
has made. -/
def EventOk (repo : ConfigRepository) (name : String) (i : Nat) (t : TaskState) :
    Event → Prop
  | .releaseList _ => False
  | .releaseView j rel r => j = i ∧ rel = t.view.Name ∧ r = repo.Repository
  | .httpGet j _ => j = i ∧ 5 ≤ t.pc.rank
  | .create j f => j = i ∧ 8 ≤ t.pc.rank ∧
      (f = versionedFileName name t.view.TagName ∨ f = aliasFileName name)

/-- Every call in the log was there when the goroutines started or was made
by one of them. -/
def TraceOk (repo : ConfigRepository) (name : String) (tr0 : List Event) (p : Proc) : Prop :=
  ∀ ev ∈ p.trace, ev ∈ tr0 ∨
    ∃ (i : Nat) (t : TaskState), p.tasks[i]? = some t ∧ EventOk repo name i t ev

/-- What holds of the process whatever the schedule. -/
def Reach (w : World) (repo : ConfigRepository) (name : String)
    (views : List ReleaseShortView) (tr0 : List Event) (p : Proc) : Prop :=
  p.tasks.map keyOf = views.map viewKey ∧
  (∀ (j : Nat) (t : TaskState), p.tasks[j]? = some t → LocalOk w repo t) ∧
  TraceOk repo name tr0 p

/-! ## Worlds to run the program in -/

/-- A release as `gh release list` gives it: the tarball fields are not asked
for and stay empty. -/
def mkView (name tag : String) (latest : Bool) : ReleaseShortView :=
  { CreatedAt := "", IsDraft := false, IsLatest := latest, IsPrerelease := false,
    Name := name, PublishedAt := "", TagName := tag, TarballUrl := "",
    TarballUrlSHA256 := "", Prefix := "" }

/-- The bytes of a text of ASCII characters. -/
def bytesOf (s : String) : Bytes := s.data.map Char.toNat

/-- The repository `org/tool`. -/
def toolRepo : ConfigRepository := ⟨"org/tool", "tool.rb.tmpl"⟩

/-- A world in which every call succeeds. The configuration names the one
repository `org/tool`, which has the releases `views`; the view of a release
gives a URL made from the argument of the query; the body of a download is the
text of the URL; the template renders the URL and the digest. -/
def okWorld (views : List ReleaseShortView) : World where
  NewProduction := none
  ReadFile _ := (bytesOf "repositories", none)
  yamlUnmarshal _ := (⟨[some toolRepo]⟩, none)
  ParseFiles _ := none
  ghReleaseList _ := ⟨none, "releases", ""⟩
  unmarshalShortViews _ := (views.map some, none)
  ghReleaseView rel _ := ⟨none, rel, ""⟩
  unmarshalView out := (some ⟨"https://example.org/" ++ out ++ ".tar.gz"⟩, none)
  httpGet url := .ok ⟨200, .ok (bytesOf url)⟩
  Execute _ view := (bytesOf (view.TarballUrl ++ " " ++ view.TarballUrlSHA256), none)
  osCreate _ := none
  fileWrite _ data := (data.length, none)
  fileClose _ := none

/-- Two releases, the second one the latest. -/
def toolViews : List ReleaseShortView :=
  [mkView "v1.0.0" "v1.0.0" false, mkView "v2.0.0" "v2.0.0" true]

/-- The schedule that lets the goroutines 0 to `n - 1` run to their end one
after the other; a goroutine has at most 14 steps. -/
def sequential (n : Nat) : List Nat :=
  (List.range n).flatMap fun i => List.replicate 14 i

/-- The schedule that lets goroutine 0 run to its end and then goroutine 1. -/
def oneAfterTheOther : List Nat := List.replicate 14 0 ++ List.replicate 14 1

/-- Two releases whose tags have the same digits. -/
def sameDigitsViews : List ReleaseShortView :=
  [mkView "v1.2.3" "v1.2.3" false, mkView "v123" "v123" true]

/-- Two releases that are both flagged latest. -/
def twoLatestViews : List ReleaseShortView :=
  [mkView "v1.0.0" "v1.0.0" true, mkView "v2.0.0" "v2.0.0" true]

/-- A release whose display name is not its tag. -/
def namedViews : List ReleaseShortView :=
  [mkView "Release 2" "v2.0.0" true]

/-- A world whose server answers every download with the given body. -/
def servingWorld (body : Bytes) : World :=
  { okWorld toolViews with httpGet := fun _ => .ok ⟨200, .ok body⟩ }

/-- A world whose server answers every download with status 404 and a body. -/
def notFoundWorld : World :=
  { okWorld toolViews with httpGet := fun _ => .ok ⟨404, .ok (bytesOf "Not Found")⟩ }

/-- A world in which the view of every release decodes to an empty URL. -/
def emptyUrlWorld : World :=
  { okWorld toolViews with unmarshalView := fun _ => (some ⟨""⟩, none) }

/-- A world in which the download of the first release fails. -/
def brokenDownloadWorld : World :=
  { okWorld toolViews with
    httpGet := fun url =>
      if url = "https://example.org/v1.0.0.tar.gz" then .error "connection refused"
      else .ok ⟨200, .ok (bytesOf url)⟩ }

/-- A schedule in which goroutine 1 runs `gh release view` between the
download of goroutine 0 and the test of its error. -/
def interleaved : List Nat :=
  List.replicate 6 0 ++ [1] ++ List.replicate 8 0 ++ List.replicate 13 1

/-- What the files of a goroutine hold at each point of `WriteFile`, in a
process that has not ended: the versioned file is empty between `os.Create`
and `file.Write` and holds the rendered bytes from then on; the alias file,
which only the goroutine of a release flagged latest touches, likewise. -/
def FileOk (name : String) (fs : FileSystem) (t : TaskState) : Prop :=
  (t.pc = .writeVersioned →
    readFile fs (versionedFileName name t.view.TagName) = some []) ∧
  (10 ≤ t.pc.rank → readFile fs (versionedFileName name t.view.TagName) = some t.buf) ∧
  (11 ≤ t.pc.rank → t.pc.rank ≤ 13 → t.view.IsLatest = true) ∧
  (t.pc = .writeAlias → readFile fs (aliasFileName name) = some []) ∧
  (13 ≤ t.pc.rank → t.view.IsLatest = true → readFile fs (aliasFileName name) = some t.buf)

/-- The file `f` was created by the goroutine in state `t`. -/
def Created (name : String) (t : TaskState) (f : String) : Prop :=
  (f = versionedFileName name t.view.TagName ∧ 9 ≤ t.pc.rank) ∨
  (f = aliasFileName name ∧ 12 ≤ t.pc.rank ∧ t.view.IsLatest = true)

/-- The files of a process that has not ended: every goroutine finds its own
files as it left them, and every file that exists was there at the start or
was created by a goroutine. -/
def FilesOk (name : String) (fs0 : FileSystem) (p : Proc) : Prop :=
  p.exit = none →
    (∀ (i : Nat) (t : TaskState), p.tasks[i]? = some t → FileOk name p.fs t) ∧
    (∀ f, (readFile p.fs f).isSome = true → (readFile fs0 f).isSome = true ∨
      ∃ (i : Nat) (t : TaskState), p.tasks[i]? = some t ∧ Created name t f)

/-- No two releases of the list have the same version token, and no two are
flagged latest. -/
def Separate (views : List ReleaseShortView) : Prop :=
  (∀ (i j : Nat) (a b : ReleaseShortView), views[i]? = some a → views[j]? = some b →
    versionToken a.TagName = versionToken b.TagName → i = j) ∧
  (∀ (i j : Nat) (a b : ReleaseShortView), views[i]? = some a → views[j]? = some b →
    a.IsLatest = true → b.IsLatest = true → i = j)

/-! # Properties -/

/-! ## The version token -/

/-- The threads of `[^0-9]` at a position. -/
theorem run_notRange_cons (pos : Nat) (c : Char) (cs : List Char) :
    (Regex.notRange '0' '9').run pos (c :: cs)
      = if isDigit c then [] else [(pos + 1, cs)] := by
  simp only [Regex.run, isDigit]
  by_cases h : '0' ≤ c ∧ c ≤ '9' <;> simp [h]

theorem plusLoop_nil (fuel pos : Nat) :
    plusLoop (fun p t => (Regex.notRange '0' '9').run p t) fuel pos [] = [] := by
  cases fuel <;> simp [plusLoop, Regex.run]

theorem plusLoop_digit (fuel pos : Nat) (c : Char) (cs : List Char) (h : isDigit c = true) :
    plusLoop (fun p t => (Regex.notRange '0' '9').run p t) fuel pos (c :: cs) = [] := by
  cases fuel with
  | zero => simp [plusLoop]
  | succ n => simp [plusLoop, run_notRange_cons, h]

theorem plusLoop_nondigit (fuel pos : Nat) (c : Char) (cs : List Char)
    (h : isDigit c = false) :
    plusLoop (fun p t => (Regex.notRange '0' '9').run p t) (fuel + 1) pos (c :: cs)
      = plusLoop (fun p t => (Regex.notRange '0' '9').run p t) fuel (pos + 1) cs
          ++ [(pos + 1, cs)] := by
  simp [plusLoop, run_notRange_cons, h]

/-- Whatever the loop `[^0-9]+` prefers, it is a run of one or more runes
that are no digits. -/
theorem plusLoop_head (fuel : Nat) : ∀ (pos : Nat) (rest : List Char) (th : Thread),
    (plusLoop (fun p t => (Regex.notRange '0' '9').run p t) fuel pos rest).head? = some th →
    ∃ k, 1 ≤ k ∧ k ≤ rest.length ∧ th.1 = pos + k ∧
      ∀ c ∈ rest.take k, isDigit c = false := by
  induction fuel with
  | zero => intro pos rest th h; simp [plusLoop] at h
  | succ n ih =>
    intro pos rest th h
    cases rest with
    | nil => simp [plusLoop_nil] at h
    | cons c cs =>
      cases hc : isDigit c with
      | true => simp [plusLoop_digit _ _ _ _ hc] at h
      | false =>
        rw [plusLoop_nondigit _ _ _ _ hc] at h
        cases hl : plusLoop (fun p t => (Regex.notRange '0' '9').run p t) n (pos + 1) cs with
        | nil =>
          rw [hl] at h
          simp at h
          refine ⟨1, le_refl _, by simp, by simp [← h], ?_⟩
          intro x hx
          simp at hx
          simpa [hx] using hc
        | cons t ts =>
          rw [hl] at h
          simp at h
          have h2 := ih (pos + 1) cs t (by simp [hl])
          obtain ⟨k, hk1, hk2, hk3, hk4⟩ := h2
          refine ⟨k + 1, by omega, by simp; omega, by rw [← h, hk3]; omega, ?_⟩
          intro x hx
          simp at hx
          rcases hx with hx | hx
          · simpa [hx] using hc
          · exact hk4 x hx


/-- The threads of the whole expression at a position. -/
theorem run_regExp (pos : Nat) (rest : List Char) :
    regExp.run pos rest
      = (if pos = 0 then (Regex.lit '-').run pos rest else [])
          ++ plusLoop (fun p t => (Regex.notRange '0' '9').run p t) (rest.length + 1) pos rest := by
  by_cases h : pos = 0 <;> simp [regExp, Regex.run, h]

theorem matchAt_regExp_nil (pos : Nat) : regExp.matchAt pos [] = none := by
  rw [Regex.matchAt, run_regExp, plusLoop_nil]
  by_cases h : pos = 0 <;> simp [Regex.run, h]

theorem matchAt_regExp_digit (pos : Nat) (c : Char) (cs : List Char)
    (h : isDigit c = true) : regExp.matchAt pos (c :: cs) = none := by
  have hne : c ≠ '-' := by
    intro hc
    rw [hc] at h
    revert h
    decide
  rw [Regex.matchAt, run_regExp, plusLoop_digit _ _ _ _ h]
  by_cases h0 : pos = 0 <;> simp [Regex.run, h0, hne]

/-- At a rune that is no digit the expression matches, and what it matches is
a run of one or more runes that are no digits. -/
theorem matchAt_regExp_nondigit (pos : Nat) (c : Char) (cs : List Char)
    (h : isDigit c = false) :
    ∃ k, 1 ≤ k ∧ k ≤ (c :: cs).length ∧ regExp.matchAt pos (c :: cs) = some (pos + k) ∧
      ∀ x ∈ (c :: cs).take k, isDigit x = false := by
  have hrun := run_regExp pos (c :: cs)
  by_cases h0 : pos = 0 ∧ c = '-'
  · refine ⟨1, le_refl _, by simp, ?_, ?_⟩
    · simp [Regex.matchAt, hrun, h0.1, h0.2, Regex.run]
    · intro x hx
      simp at hx
      simpa [hx] using h
  · have hfirst : (if pos = 0 then (Regex.lit '-').run pos (c :: cs) else []) = [] := by
      by_cases hp : pos = 0
      · have : c ≠ '-' := fun hc => h0 ⟨hp, hc⟩
        simp [hp, Regex.run, this]
      · simp [hp]
    rw [hfirst, List.nil_append] at hrun
    have hne : plusLoop (fun p t => (Regex.notRange '0' '9').run p t)
        ((c :: cs).length + 1) pos (c :: cs) ≠ [] := by
      rw [plusLoop_nondigit _ _ _ _ h]
      simp
    obtain ⟨th, hth⟩ : ∃ th, (plusLoop (fun p t => (Regex.notRange '0' '9').run p t)
        ((c :: cs).length + 1) pos (c :: cs)).head? = some th := by
      cases hl : plusLoop (fun p t => (Regex.notRange '0' '9').run p t)
          ((c :: cs).length + 1) pos (c :: cs) with
      | nil => exact absurd hl hne
      | cons t ts => exact ⟨t, rfl⟩
    obtain ⟨k, hk1, hk2, hk3, hk4⟩ := plusLoop_head _ _ _ _ hth
    refine ⟨k, hk1, hk2, ?_, hk4⟩
    rw [Regex.matchAt, hrun, hth]
    simp [hk3]

/-- No match from `pos` on: the rest of the input is digits only. -/
theorem find_regExp_none : ∀ (rest : List Char) (pos : Nat),
    regExp.find pos rest = none → ∀ c ∈ rest, isDigit c = true := by
  intro rest
  induction rest with
  | nil => intro pos _ c hc; simp at hc
  | cons x xs ih =>
    intro pos h c hc
    cases hx : isDigit x with
    | false =>
      obtain ⟨k, _, _, hk, _⟩ := matchAt_regExp_nondigit pos x xs hx
      simp [Regex.find, hk] at h
    | true =>
      simp [Regex.find, matchAt_regExp_digit pos x xs hx] at h
      simp at hc
      rcases hc with hc | hc
      · rw [hc]; exact hx
      · exact ih (pos + 1) h c hc

/-- The leftmost match from `pos` on: `j` digits are skipped, then `k ≥ 1`
runes that are no digits are matched. -/
theorem find_regExp_some : ∀ (rest : List Char) (pos a0 a1 : Nat),
    regExp.find pos rest = some (a0, a1) →
    ∃ j k, a0 = pos + j ∧ a1 = pos + j + k ∧ 1 ≤ k ∧ j + k ≤ rest.length ∧
      (∀ c ∈ rest.take j, isDigit c = true) ∧
      (∀ c ∈ (rest.drop j).take k, isDigit c = false) := by
  intro rest
  induction rest with
  | nil => intro pos a0 a1 h; simp [Regex.find, matchAt_regExp_nil] at h
  | cons x xs ih =>
    intro pos a0 a1 h
    cases hx : isDigit x with
    | false =>
      obtain ⟨k, hk1, hk2, hk, hk4⟩ := matchAt_regExp_nondigit pos x xs hx
      simp [Regex.find, hk] at h
      refine ⟨0, k, by omega, by omega, hk1, by simpa using hk2, by simp, ?_⟩
      simpa using hk4
    | true =>
      simp [Regex.find, matchAt_regExp_digit pos x xs hx] at h
      obtain ⟨j, k, h1, h2, h3, h4, h5, h6⟩ := ih (pos + 1) a0 a1 h
      refine ⟨j + 1, k, by omega, by omega, h3, by simp; omega, ?_, ?_⟩
      · intro c hc
        simp at hc
        rcases hc with hc | hc
        · rw [hc]; exact hx
        · exact h5 c hc
      · simpa using h6


theorem filter_isDigit_of_all (l : List Char) (h : ∀ c ∈ l, isDigit c = true) :
    l.filter isDigit = l := by
  rw [List.filter_eq_self]
  exact h

theorem filter_isDigit_of_none (l : List Char) (h : ∀ c ∈ l, isDigit c = false) :
    l.filter isDigit = [] := by
  rw [List.filter_eq_nil_iff]
  intro c hc
  simp [h c hc]

/-- Digits, then a run without digits, then the rest: only the digits and
what the rest keeps survive the filter. -/
theorem filter_isDigit_split (rest : List Char) (j k : Nat)
    (hd : ∀ c ∈ rest.take j, isDigit c = true)
    (hn : ∀ c ∈ (rest.drop j).take k, isDigit c = false) :
    rest.filter isDigit = rest.take j ++ (rest.drop (j + k)).filter isDigit := by
  have h1 : rest = rest.take j ++ ((rest.drop j).take k ++ (rest.drop j).drop k) := by
    rw [List.take_append_drop, List.take_append_drop]
  conv_lhs => rw [h1]
  rw [List.filter_append, List.filter_append, filter_isDigit_of_all _ hd,
    filter_isDigit_of_none _ hn, List.nil_append, List.drop_drop]

/-- The loop of `replaceAll` with the empty replacement, started at a
position where the last match ended, keeps the digits of the rest. -/
theorem replaceAllLoop_regExp (src : List Char) (fuel : Nat) : ∀ (p : Nat) (buf : List Char),
    p ≤ src.length → src.length - p + 1 ≤ fuel →
    replaceAllLoop regExp src [] fuel p p buf = buf ++ (src.drop p).filter isDigit := by
  induction fuel with
  | zero => intro p buf _ h; omega
  | succ n ih =>
    intro p buf hp hfuel
    rw [replaceAllLoop, if_pos hp]
    cases hf : regExp.find p (src.drop p) with
    | none =>
      simp only []
      rw [filter_isDigit_of_all _ (find_regExp_none _ _ hf)]
    | some a =>
      obtain ⟨a0, a1⟩ := a
      obtain ⟨j, k, h0, h1, hk, hjk, hd, hn⟩ := find_regExp_some _ _ _ _ hf
      have hlen : (src.drop p).length = src.length - p := by simp
      have hs : (if p + (if p < src.length then 1 else 0) > a1
          then p + (if p < src.length then 1 else 0)
          else if p + 1 > a1 then p + 1 else a1) = a1 := by
        split_ifs <;> omega
      simp only [List.append_nil, ite_self, hs]
      rw [ih a1 _ (by omega) (by omega), filter_isDigit_split _ j k hd hn, List.drop_drop]
      have e1 : a0 - p = j := by omega
      have e2 : p + (j + k) = a1 := by omega
      rw [e1, e2, List.append_assoc]

/-- The version token is the digits of the tag. -/
theorem versionToken_data (tag : String) :
    (versionToken tag).data = tag.data.filter isDigit := by
  have hl : tag.length = tag.data.length := rfl
  have h := replaceAllLoop_regExp tag.data (tag.length + 2) 0 []
    (Nat.zero_le _) (by omega)
  simp only [versionToken, ReplaceAllString]
  show replaceAllLoop regExp tag.data [] (tag.length + 2) 0 0 [] = _
  rw [h]
  simp

theorem filter_stripLeadingDash (l : List Char) :
    (stripLeadingDash l).filter isDigit = l.filter isDigit := by
  unfold stripLeadingDash
  split
  · rw [List.filter_cons_of_neg (by decide)]
  · rfl

/-- C1. For every release tag, the version token used in the versioned file
name, the result of replacing all matches of `^(-)|[^0-9]+` in the tag by the
empty string, is the tag with one leading `-` stripped when present and then
every rune that is not an ASCII digit removed, which is the digits of the tag
in their order; `v1.2.3` gives `123`, `-beta2` gives `2` and
`2024-01-release` gives `202401`. -/
theorem version_token_digits :
    (∀ tag : String,
        versionToken tag = String.mk ((stripLeadingDash tag.data).filter isDigit) ∧
        versionToken tag = String.mk (tag.data.filter isDigit)) ∧
      versionToken "v1.2.3" = "123" ∧
      versionToken "-beta2" = "2" ∧
      versionToken "2024-01-release" = "202401" := by
  refine ⟨fun tag => ?_, by decide, by decide, by decide⟩
  have h : versionToken tag = String.mk (tag.data.filter isDigit) := by
    rw [← versionToken_data]
  exact ⟨by rw [filter_stripLeadingDash]; exact h, h⟩


/-! ## Schedules -/

theorem runSchedule_nil (w : World) (repo : ConfigRepository) (name : String) (p : Proc) :
    runSchedule w repo name p [] = p := rfl

theorem runSchedule_cons (w : World) (repo : ConfigRepository) (name : String) (p : Proc)
    (i : Nat) (sched : List Nat) :
    runSchedule w repo name p (i :: sched)
      = runSchedule w repo name (Proc.step w repo name p i) sched := rfl

/-- A property that holds when the goroutines start and that every step of a
goroutine of a live process keeps, holds whatever the schedule. -/
theorem runSchedule_induction (w : World) (repo : ConfigRepository) (name : String)
    (P : Proc → Prop)
    (hstep : ∀ p i t, P p → p.exit = none → p.tasks[i]? = some t →
      P (stepTask w repo name i t p)) :
    ∀ (sched : List Nat) (p : Proc), P p → P (runSchedule w repo name p sched) := by
  intro sched
  induction sched with
  | nil => intro p hp; exact hp
  | cons i rest ih =>
    intro p hp
    rw [runSchedule_cons]
    apply ih
    unfold Proc.step
    cases he : p.exit with
    | some e => exact hp
    | none =>
      cases ht : p.tasks[i]? with
      | none => exact hp
      | some t => exact hstep p i t hp he ht

/-- A step of a goroutine changes no other goroutine. -/
theorem stepTask_tasks_ne (w : World) (repo : ConfigRepository) (name : String) (i j : Nat)
    (t : TaskState) (p : Proc) (hij : i ≠ j) :
    (stepTask w repo name i t p).tasks[j]? = p.tasks[j]? := by
  unfold stepTask
  cases t.pc <;> simp only [stepCreate, stepWrite, stepClose, Proc.setTask, Proc.fatal] <;>
    (repeat' split) <;> simp [List.getElem?_set_ne hij]

theorem stepTask_length (w : World) (repo : ConfigRepository) (name : String) (i : Nat)
    (t : TaskState) (p : Proc) :
    (stepTask w repo name i t p).tasks.length = p.tasks.length := by
  unfold stepTask
  cases t.pc <;> simp only [stepCreate, stepWrite, stepClose, Proc.setTask, Proc.fatal] <;>
    (repeat' split) <;> simp

/-- What a step makes of its own goroutine: it stays as it was (the process
ended, or the goroutine had returned) or it moved on. -/
theorem stepTask_tasks_self (w : World) (repo : ConfigRepository) (name : String) (i : Nat)
    (t : TaskState) (p : Proc) (ht : p.tasks[i]? = some t) :
    ∃ t', (stepTask w repo name i t p).tasks[i]? = some t' ∧ keyOf t' = keyOf t ∧
      t.pc.rank ≤ t'.pc.rank := by
  have hi : i < p.tasks.length := by
    rcases Nat.lt_or_ge i p.tasks.length with h | h
    · exact h
    · rw [List.getElem?_eq_none h] at ht; cases ht
  unfold stepTask
  cases hpc : t.pc <;> simp only [stepCreate, stepWrite, stepClose, Proc.setTask, Proc.fatal] <;>
    (repeat' split) <;> simp [List.getElem?_set_self, hi, ht, keyOf, hpc, Pc.rank]


/-! ## Before the goroutines start -/

/-- The pieces of a split are never none at all. -/
theorem splitAux_ne_nil (sep : Char) : ∀ (l cur : List Char), splitAux sep l cur ≠ [] := by
  intro l
  induction l with
  | nil => intro cur; simp [splitAux]
  | cons c cs ih =>
    intro cur
    unfold splitAux
    split
    · simp
    · exact ih _

/-- The last piece of a split: it has no separator in it, and the input ends
with it, right after a separator when something stands before it. -/
theorem splitAux_getLast (sep : Char) : ∀ (l cur : List Char) (last : List Char),
    sep ∉ cur → (splitAux sep l cur).getLast? = some last →
    sep ∉ last ∧ ∃ pre, cur.reverse ++ l = pre ++ last ∧ (pre = [] ∨ ∃ q, pre = q ++ [sep]) := by
  intro l
  induction l with
  | nil =>
    intro cur last hcur h
    simp [splitAux] at h
    subst h
    exact ⟨by simpa using hcur, [], by simp, Or.inl rfl⟩
  | cons c cs ih =>
    intro cur last hcur h
    unfold splitAux at h
    by_cases hc : c = sep
    · rw [if_pos hc] at h
      have h' : (splitAux sep cs []).getLast? = some last := by
        cases hl : splitAux sep cs [] with
        | nil => exact absurd hl (splitAux_ne_nil sep cs [])
        | cons y ys => rw [hl, List.getLast?_cons_cons] at h; exact h
      replace h := h'
      obtain ⟨h1, pre, h2, h3⟩ := ih [] last (by simp) h
      refine ⟨h1, cur.reverse ++ [c] ++ pre, ?_, Or.inr ?_⟩
      · simp at h2
        simp [h2]
      · rcases h3 with h3 | ⟨q, h3⟩
        · exact ⟨cur.reverse, by simp [h3, hc]⟩
        · exact ⟨cur.reverse ++ [c] ++ q, by simp [h3]⟩
    · rw [if_neg hc] at h
      have hcur' : sep ∉ c :: cur := by
        simp only [List.mem_cons, not_or]
        exact ⟨fun h => hc h.symm, hcur⟩
      obtain ⟨h1, pre, h2, h3⟩ := ih (c :: cur) last hcur' h
      exact ⟨h1, pre, by simpa using h2, h3⟩

/-- Taking the last element of the split never indexes out of range, and what
it gives is the last segment of the repository name. -/
theorem lastSegment_spec (repository : String) :
    ∃ name, lastSegment repository = some name ∧ '/' ∉ name.data ∧
      ∃ pre, repository.data = pre ++ name.data ∧ (pre = [] ∨ ∃ q, pre = q ++ ['/']) := by
  unfold lastSegment Split
  simp only []
  rw [← List.getLast?_eq_getElem?, List.getLast?_map]
  cases h : (splitAux '/' repository.data []).getLast? with
  | none =>
    rw [List.getLast?_eq_none_iff] at h
    exact absurd h (splitAux_ne_nil _ _ _)
  | some last =>
    obtain ⟨h1, pre, h2, h3⟩ := splitAux_getLast '/' repository.data [] last (by simp) h
    exact ⟨String.mk last, rfl, h1, pre, by simpa using h2, h3⟩

/-- Without a release flagged latest the loop leaves `latest` as it was,
unless it meets a `nil` element. -/
theorem latestLoop_none : ∀ (l : List (Option ReleaseShortView)) (latest : Option ReleaseShortView),
    (∀ v, some v ∈ l → v.IsLatest = false) →
    latestLoop l latest = .ok latest ∨ ∃ e, latestLoop l latest = .error e := by
  intro l
  induction l with
  | nil => intro latest _; exact Or.inl rfl
  | cons x xs ih =>
    intro latest h
    cases x with
    | none => exact Or.inr ⟨_, rfl⟩
    | some v =>
      have hv : v.IsLatest = false := h v (by simp)
      have := ih latest (fun u hu => h u (by simp [hu]))
      simpa [latestLoop, hv] using this

/-- With no `nil` element the loop does not fail, and once a flagged release
was seen `latest` is set. -/
theorem latestLoop_some : ∀ (l : List (Option ReleaseShortView)) (latest : Option ReleaseShortView),
    (∀ x ∈ l, x ≠ none) →
    (latest.isSome = true ∨ ∃ v, some v ∈ l ∧ v.IsLatest = true) →
    ∃ v, latestLoop l latest = .ok (some v) := by
  intro l
  induction l with
  | nil =>
    intro latest _ h
    rcases h with h | ⟨v, hv, _⟩
    · cases latest with
      | none => simp at h
      | some v => exact ⟨v, rfl⟩
    · simp at hv
  | cons x xs ih =>
    intro latest hnn h
    cases x with
    | none => exact absurd rfl (hnn none (by simp))
    | some u =>
      simp only [latestLoop]
      apply ih _ (fun y hy => hnn y (by simp [hy]))
      by_cases hu : u.IsLatest = true
      · left; simp [hu]
      · rcases h with h | ⟨v, hv, hl⟩
        · left; simpa [hu] using h
        · right
          simp at hv
          rcases hv with hv | hv
          · subst hv; exact absurd hl hu
          · exact ⟨v, hv, hl⟩

/-- A loop that did not fail met no `nil` element. -/
theorem latestLoop_ok_nonnil : ∀ (l : List (Option ReleaseShortView))
    (latest r : Option ReleaseShortView),
    latestLoop l latest = .ok r → l = (l.filterMap id).map some := by
  intro l
  induction l with
  | nil => intro _ _ _; rfl
  | cons x xs ih =>
    intro latest r h
    cases x with
    | none => simp [latestLoop] at h
    | some u =>
      simp only [latestLoop] at h
      have := ih _ _ h
      simp only [List.filterMap_cons, id, List.map_cons]
      rw [← this]


/-- A setup that ends the process leaves the files alone and has made no
call but the listing of the releases. -/
theorem runRepository_setup_error (w : World) (repo : ConfigRepository) (sched : List Nat)
    (fs : FileSystem) (e : Exit) (h : (setup w repo).2 = .error e) :
    (runRepository w repo sched fs).status = .exited e ∧
      (runRepository w repo sched fs).fs = fs ∧
      (runRepository w repo sched fs).trace = (setup w repo).1 := by
  unfold runRepository
  cases hs : setup w repo with
  | mk tr r =>
    rw [hs] at h
    simp only at h
    subst h
    simp

/-- The calls of the setup: nothing, or the listing of the releases. -/
theorem setup_trace (w : World) (repo : ConfigRepository) :
    ∀ ev ∈ (setup w repo).1, ev = Event.releaseList repo.Repository := by
  unfold setup
  intro ev
  split
  · simp
  split
  · simp
  simp only []
  repeat' split
  all_goals simp

/-- The setup ends the process when the list of releases is empty or has no
release flagged latest. -/
theorem setup_fails_of_no_latest (w : World) (repo : ConfigRepository)
    (h : (w.unmarshalShortViews (w.ghReleaseList repo.Repository).stdout).1 = [] ∨
      ∀ v, some v ∈ (w.unmarshalShortViews (w.ghReleaseList repo.Repository).stdout).1 →
        v.IsLatest = false) :
    ∃ e, (setup w repo).2 = .error e := by
  unfold setup
  split
  · exact ⟨_, rfl⟩
  split
  · exact ⟨_, rfl⟩
  simp only []
  split
  · exact ⟨_, rfl⟩
  split
  · exact ⟨_, rfl⟩
  split
  · exact ⟨_, rfl⟩
  rename_i hlen
  rcases h with h | h
  · rw [h] at hlen; simp at hlen
  · rcases latestLoop_none _ none h with h1 | ⟨e, h1⟩
    · rw [h1]; exact ⟨_, rfl⟩
    · rw [h1]; exact ⟨_, rfl⟩

/-- C3. For every repository whose list of releases is empty, or has no entry
with `IsLatest` set, the pipeline fails before any goroutine is started: the
setup ends the process, no release is looked up, nothing is downloaded and
the files are as they were. -/
theorem no_latest_fails_before_spawn (w : World) (repo : ConfigRepository)
    (sched : List Nat) (fs : FileSystem)
    (h : (w.unmarshalShortViews (w.ghReleaseList repo.Repository).stdout).1 = [] ∨
      ∀ v, some v ∈ (w.unmarshalShortViews (w.ghReleaseList repo.Repository).stdout).1 →
        v.IsLatest = false) :
    ∃ e, (setup w repo).2 = .error e ∧
      (runRepository w repo sched fs).status = .exited e ∧
      (runRepository w repo sched fs).fs = fs ∧
      (∀ i rel r, Event.releaseView i rel r ∉ (runRepository w repo sched fs).trace) ∧
      (∀ i url, Event.httpGet i url ∉ (runRepository w repo sched fs).trace) ∧
      (∀ i f, Event.create i f ∉ (runRepository w repo sched fs).trace) := by
  obtain ⟨e, he⟩ := setup_fails_of_no_latest w repo h
  obtain ⟨h1, h2, h3⟩ := runRepository_setup_error w repo sched fs e he
  refine ⟨e, he, h1, h2, ?_, ?_, ?_⟩ <;>
  · intros
    rw [h3]
    intro hmem
    have := setup_trace w repo _ hmem
    cases this

/-- The setup succeeds, with one goroutine to start for every release, as
soon as the template parses, the listing runs and decodes, no element is
`nil` and some release is flagged latest, be it one or several. -/
theorem setup_ok (w : World) (repo : ConfigRepository)
    (hparse : w.ParseFiles repo.TemplateFileName = none)
    (hrun : (w.ghReleaseList repo.Repository).err = none)
    (hjson : (w.unmarshalShortViews (w.ghReleaseList repo.Repository).stdout).2 = none)
    (hnn : ∀ x ∈ (w.unmarshalShortViews (w.ghReleaseList repo.Repository).stdout).1, x ≠ none)
    (hl : ∃ v, some v ∈ (w.unmarshalShortViews (w.ghReleaseList repo.Repository).stdout).1 ∧
      v.IsLatest = true) :
    ∃ name, lastSegment repo.Repository = some name ∧
      setup w repo = ([Event.releaseList repo.Repository], .ok (name,
        (w.unmarshalShortViews (w.ghReleaseList repo.Repository).stdout).1.filterMap id)) := by
  obtain ⟨name, hname, _⟩ := lastSegment_spec repo.Repository
  refine ⟨name, hname, ?_⟩
  obtain ⟨v, hv⟩ := latestLoop_some _ none hnn (Or.inr hl)
  obtain ⟨u, hu, _⟩ := hl
  have hlen : (w.unmarshalShortViews (w.ghReleaseList repo.Repository).stdout).1.length ≠ 0 := by
    intro h0
    rw [List.length_eq_zero] at h0
    rw [h0] at hu
    simp at hu
  simp [setup, hname, hparse, hrun, hjson, hlen, hv]


/-! ## The digest -/

theorem Sum256_length (msg : Bytes) : (Sum256 msg).length = 32 := by
  simp [Sum256, wordBytes]

theorem hexDigits_lower : ∀ k, k < 16 → isLowerHex (hexDigits.getD k '0') := by
  unfold isLowerHex
  decide

theorem hexByte_lower (b : Nat) : ∀ c ∈ hexByte b, isLowerHex c := by
  intro c hc
  simp only [hexByte, List.mem_cons, List.mem_singleton, List.not_mem_nil, or_false] at hc
  rcases hc with hc | hc <;> rw [hc] <;> apply hexDigits_lower <;> omega

theorem Sprintf_x_length (bs : Bytes) : (Sprintf_x bs).length = 2 * bs.length := by
  unfold Sprintf_x
  rw [String.length_mk]
  induction bs with
  | nil => rfl
  | cons b bs ih =>
    rw [List.flatMap_cons, List.length_append, ih]
    simp [hexByte]
    omega

theorem Sprintf_x_lower (bs : Bytes) : ∀ c ∈ (Sprintf_x bs).data, isLowerHex c := by
  intro c hc
  simp only [Sprintf_x, List.mem_flatMap] at hc
  obtain ⟨b, _, hb⟩ := hc
  exact hexByte_lower b c hb

/-- When `GetUrlFileHashSHA256` gives no error, there was a response and its
body was read. -/
theorem GetUrlFileHashSHA256_ok (w : World) (url : String)
    (h : (GetUrlFileHashSHA256 w url).2 = none) :
    ∃ resp body, w.httpGet url = .ok resp ∧ resp.Body = .ok body ∧
      GetUrlFileHashSHA256 w url = (Sprintf_x (Sum256 body), none) := by
  unfold GetUrlFileHashSHA256 at h ⊢
  cases hg : w.httpGet url with
  | error e => rw [hg] at h; simp at h
  | ok resp =>
    cases hb : resp.Body with
    | error e => rw [hg] at h; simp [hb] at h
    | ok body => exact ⟨resp, body, rfl, hb, by simp [hb]⟩

/-! ## What every schedule keeps -/

theorem stepTask_keys (w : World) (repo : ConfigRepository) (name : String) (i : Nat)
    (t : TaskState) (p : Proc) (ht : p.tasks[i]? = some t) :
    (stepTask w repo name i t p).tasks.map keyOf = p.tasks.map keyOf := by
  apply List.ext_getElem?
  intro j
  rw [List.getElem?_map, List.getElem?_map]
  by_cases hij : i = j
  · subst hij
    obtain ⟨t', h1, h2, _⟩ := stepTask_tasks_self w repo name i t p ht
    rw [h1, ht]
    simp [h2]
  · rw [stepTask_tasks_ne w repo name i j t p hij]

/-- A goroutine that moved on still knows what it knew. -/
theorem stepTask_local (w : World) (repo : ConfigRepository) (name : String) (i : Nat)
    (t : TaskState) (p : Proc) (ht : p.tasks[i]? = some t) (hl : LocalOk w repo t) :
    ∀ t', (stepTask w repo name i t p).tasks[i]? = some t' → LocalOk w repo t' := by
  have hi : i < p.tasks.length := by
    rcases Nat.lt_or_ge i p.tasks.length with h | h
    · exact h
    · rw [List.getElem?_eq_none h] at ht; cases ht
  obtain ⟨h1, h2⟩ := hl
  intro t'
  unfold stepTask
  cases hpc : t.pc <;> simp only [stepCreate, stepWrite, stepClose, Proc.setTask, Proc.fatal] <;>
    (repeat' split) <;>
    simp only [List.getElem?_set_self hi, ht, Option.some.injEq] <;>
    intro h <;> subst h <;>
    simp_all [LocalOk, Pc.rank]

/-- The calls a step adds to the log are calls of the goroutine that took it. -/
theorem stepTask_trace (w : World) (repo : ConfigRepository) (name : String) (i : Nat)
    (t : TaskState) (p : Proc) (ht : p.tasks[i]? = some t) :
    ∀ ev ∈ (stepTask w repo name i t p).trace, ev ∈ p.trace ∨
      ∃ t', (stepTask w repo name i t p).tasks[i]? = some t' ∧ EventOk repo name i t' ev := by
  have hi : i < p.tasks.length := by
    rcases Nat.lt_or_ge i p.tasks.length with h | h
    · exact h
    · rw [List.getElem?_eq_none h] at ht; cases ht
  intro ev
  unfold stepTask
  cases hpc : t.pc <;> simp only [stepCreate, stepWrite, stepClose, Proc.setTask, Proc.fatal] <;>
    (repeat' split) <;>
    simp only [List.getElem?_set_self hi, ht, List.mem_append, List.mem_singleton] <;>
    intro h <;>
    first
      | exact Or.inl h
      | (rcases h with h | h
         · exact Or.inl h
         · subst h
           right
           simp [EventOk, Pc.rank, hpc])

theorem EventOk_mono (repo : ConfigRepository) (name : String) (i : Nat) (t t' : TaskState)
    (ev : Event) (hk : keyOf t' = keyOf t) (hr : t.pc.rank ≤ t'.pc.rank)
    (h : EventOk repo name i t ev) : EventOk repo name i t' ev := by
  simp only [keyOf, Prod.mk.injEq] at hk
  obtain ⟨hk1, hk2, _⟩ := hk
  cases ev with
  | releaseList r => exact absurd h (by simp [EventOk])
  | releaseView j rel r =>
    simp only [EventOk] at h ⊢
    rw [hk1]; exact h
  | httpGet j url =>
    simp only [EventOk] at h ⊢
    exact ⟨h.1, by omega⟩
  | create j f =>
    simp only [EventOk] at h ⊢
    rw [hk2]; exact ⟨h.1, by omega, h.2.2⟩

/-- The goroutines start in a state that has the property. -/
theorem reach_spawn (w : World) (repo : ConfigRepository) (name : String)
    (views : List ReleaseShortView) (fs : FileSystem) (tr0 : List Event) :
    Reach w repo name views tr0 (spawn fs tr0 views) := by
  refine ⟨?_, ?_, ?_⟩
  · simp [spawn, keyOf, viewKey, newTask]
  · intro j t ht
    simp only [spawn, List.getElem?_map] at ht
    cases hv : views[j]? with
    | none => rw [hv] at ht; cases ht
    | some v =>
      rw [hv] at ht
      simp only [Option.map_some', Option.some.injEq] at ht
      subst ht
      simp [LocalOk, newTask, Pc.rank]
  · intro ev hev
    exact Or.inl hev

/-- Every step keeps the property. -/
theorem reach_step (w : World) (repo : ConfigRepository) (name : String)
    (views : List ReleaseShortView) (tr0 : List Event) (p : Proc) (i : Nat) (t : TaskState)
    (h : Reach w repo name views tr0 p) (ht : p.tasks[i]? = some t) :
    Reach w repo name views tr0 (stepTask w repo name i t p) := by
  obtain ⟨hk, hl, htr⟩ := h
  obtain ⟨t1, h1, hk1, hr1⟩ := stepTask_tasks_self w repo name i t p ht
  refine ⟨?_, ?_, ?_⟩
  · rw [stepTask_keys w repo name i t p ht]; exact hk
  · intro j tj htj
    by_cases hij : i = j
    · subst hij
      exact stepTask_local w repo name i t p ht (hl i t ht) tj htj
    · rw [stepTask_tasks_ne w repo name i j t p hij] at htj
      exact hl j tj htj
  · intro ev hev
    rcases stepTask_trace w repo name i t p ht ev hev with hold | ⟨t', ht', hok⟩
    · rcases htr ev hold with h0 | ⟨j, tj, htj, hok⟩
      · exact Or.inl h0
      · right
        by_cases hij : i = j
        · subst hij
          rw [ht] at htj
          cases htj
          exact ⟨i, t1, h1, EventOk_mono repo name i t t1 ev hk1 hr1 hok⟩
        · exact ⟨j, tj, by rw [stepTask_tasks_ne w repo name i j t p hij]; exact htj, hok⟩
    · exact Or.inr ⟨i, t', ht', hok⟩

/-- The property holds after every schedule. -/
theorem reach_runSchedule (w : World) (repo : ConfigRepository) (name : String)
    (views : List ReleaseShortView) (fs : FileSystem) (tr0 : List Event) (sched : List Nat) :
    Reach w repo name views tr0 (runSchedule w repo name (spawn fs tr0 views) sched) :=
  runSchedule_induction w repo name (Reach w repo name views tr0)
    (fun p i t hp _ ht => reach_step w repo name views tr0 p i t hp ht)
    sched _ (reach_spawn w repo name views fs tr0)

theorem Proc.step_eq (w : World) (repo : ConfigRepository) (name : String) (p : Proc) (i : Nat)
    (t : TaskState) (he : p.exit = none) (ht : p.tasks[i]? = some t) :
    Proc.step w repo name p i = stepTask w repo name i t p := by
  simp [Proc.step, he, ht]

/-- The goroutine of release `i` of the list is goroutine `i`, and it keeps
the name, the tag and the flag of the release. -/
theorem reach_view (w : World) (repo : ConfigRepository) (name : String)
    (views : List ReleaseShortView) (tr0 : List Event) (p : Proc)
    (h : Reach w repo name views tr0 p) (i : Nat) :
    (∀ t, p.tasks[i]? = some t → ∃ v, views[i]? = some v ∧ keyOf t = viewKey v) ∧
    (∀ v, views[i]? = some v → ∃ t, p.tasks[i]? = some t ∧ keyOf t = viewKey v) := by
  have hk := congrArg (fun l => l[i]?) h.1
  simp only [List.getElem?_map] at hk
  constructor
  · intro t ht
    rw [ht] at hk
    cases hv : views[i]? with
    | none => rw [hv] at hk; cases hk
    | some v =>
      rw [hv] at hk
      simp only [Option.map_some', Option.some.injEq] at hk
      exact ⟨v, rfl, hk⟩
  · intro v hv
    rw [hv] at hk
    cases ht : p.tasks[i]? with
    | none => rw [ht] at hk; cases hk
    | some t =>
      rw [ht] at hk
      simp only [Option.map_some', Option.some.injEq] at hk
      exact ⟨t, rfl, hk⟩

/-- A goroutine whose decoded URL is empty does not get past the test of
line 239. -/
theorem stepTask_stays_before_hash (w : World) (repo : ConfigRepository) (name : String)
    (i : Nat) (t : TaskState) (p : Proc) (ht : p.tasks[i]? = some t)
    (hr : t.pc.rank ≤ 4) (hm : t.pc = .checkUrl → t.modelView = some ⟨""⟩) :
    ∀ t', (stepTask w repo name i t p).tasks[i]? = some t' → t'.pc.rank ≤ 4 := by
  have hi : i < p.tasks.length := by
    rcases Nat.lt_or_ge i p.tasks.length with h | h
    · exact h
    · rw [List.getElem?_eq_none h] at ht; cases ht
  intro t'
  unfold stepTask
  cases hpc : t.pc <;> simp only [hpc, Pc.rank] at hr hm <;> try omega
  all_goals
    simp only [Proc.setTask, Proc.fatal, hm]
    (repeat' split)
    all_goals
      simp only [List.getElem?_set_self hi, ht, Option.some.injEq]
      intro h
      subst h
      simp_all [Pc.rank]

/-- The goroutine of a release whose view decodes to an empty URL stays before
the download, whatever the schedule. -/
theorem before_hash_runSchedule (w : World) (repo : ConfigRepository) (name : String)
    (views : List ReleaseShortView) (fs : FileSystem) (tr0 : List Event) (i : Nat)
    (v : ReleaseShortView) (hv : views[i]? = some v)
    (hparse : (w.unmarshalView (w.ghReleaseView v.Name repo.Repository).stdout).1 = some ⟨""⟩)
    (sched : List Nat) :
    Reach w repo name views tr0 (runSchedule w repo name (spawn fs tr0 views) sched) ∧
    ∀ t, (runSchedule w repo name (spawn fs tr0 views) sched).tasks[i]? = some t →
      t.pc.rank ≤ 4 := by
  refine runSchedule_induction w repo name
    (fun p => Reach w repo name views tr0 p ∧ ∀ t, p.tasks[i]? = some t → t.pc.rank ≤ 4)
    ?_ sched _ ⟨reach_spawn w repo name views fs tr0, ?_⟩
  · intro p k t hp _ ht
    obtain ⟨hreach, hrank⟩ := hp
    refine ⟨reach_step w repo name views tr0 p k t hreach ht, ?_⟩
    intro t' ht'
    by_cases hki : k = i
    · subst hki
      apply stepTask_stays_before_hash w repo name k t p ht (hrank t ht) ?_ t' ht'
      intro hpc
      obtain ⟨v', hv', hkey⟩ := (reach_view w repo name views tr0 p hreach k).1 t ht
      rw [hv] at hv'
      cases hv'
      have hl := hreach.2.1 k t ht
      simp only [keyOf, viewKey, Prod.mk.injEq] at hkey
      rw [hl.2 (by simp [hpc, Pc.rank]), hl.1 (by simp [hpc, Pc.rank]), hkey.1]
      exact hparse
    · rw [stepTask_tasks_ne w repo name k i t p hki] at ht'
      exact hrank t' ht'
  · intro t ht
    simp only [spawn, List.getElem?_map, hv, Option.map_some', Option.some.injEq] at ht
    subst ht
    simp [newTask, Pc.rank]

/-- C5. For every release, if `gh release view` succeeds and its output
decodes, but the decoded `tarballUrl` is the empty string, the goroutine of
the release fails: whatever the schedule it never gets past the test of the
URL, so it makes no download and creates no file, neither the versioned one
nor the alias, and the run cannot complete; and when it is let run, it ends
the process with the message that the URL is empty. -/
theorem empty_url_task_fails (w : World) (repo : ConfigRepository) (name : String)
    (views : List ReleaseShortView) (fs : FileSystem) (tr0 : List Event) (i : Nat)
    (v : ReleaseShortView) (hv : views[i]? = some v)
    (hview : (w.ghReleaseView v.Name repo.Repository).err = none)
    (hparse : w.unmarshalView (w.ghReleaseView v.Name repo.Repository).stdout
      = (some ⟨""⟩, none)) :
    (∀ sched : List Nat,
      (∀ t, (runSchedule w repo name (spawn fs tr0 views) sched).tasks[i]? = some t →
        t.pc.rank ≤ Pc.checkUrl.rank) ∧
      (∀ url, Event.httpGet i url ∈ (runSchedule w repo name (spawn fs tr0 views) sched).trace →
        Event.httpGet i url ∈ tr0) ∧
      (∀ f, Event.create i f ∈ (runSchedule w repo name (spawn fs tr0 views) sched).trace →
        Event.create i f ∈ tr0) ∧
      ¬ ((runSchedule w repo name (spawn fs tr0 views) sched).exit = none ∧
          allDone (runSchedule w repo name (spawn fs tr0 views) sched) = true)) ∧
    (runSchedule w repo name (spawn fs tr0 views) (List.replicate 5 i)).exit
        = some (.fatal "TarballUrl is empty") ∧
    (runSchedule w repo name (spawn fs tr0 views) (List.replicate 5 i)).fs = fs := by
  have hp1 : (w.unmarshalView (w.ghReleaseView v.Name repo.Repository).stdout).1 = some ⟨""⟩ := by
    rw [hparse]
  have hp2 : (w.unmarshalView (w.ghReleaseView v.Name repo.Repository).stdout).2 = none := by
    rw [hparse]
  have hi : i < views.length := by
    rcases Nat.lt_or_ge i views.length with h | h
    · exact h
    · rw [List.getElem?_eq_none h] at hv; cases hv
  refine ⟨fun sched => ?_, ?_, ?_⟩
  · obtain ⟨hreach, hrank⟩ :=
      before_hash_runSchedule w repo name views fs tr0 i v hv hp1 sched
    refine ⟨hrank, ?_, ?_, ?_⟩
    · intro url hmem
      rcases hreach.2.2 _ hmem with h0 | ⟨j, t, ht, hok⟩
      · exact h0
      · simp only [EventOk] at hok
        obtain ⟨hj, h5⟩ := hok
        subst hj
        have := hrank t ht
        omega
    · intro f hmem
      rcases hreach.2.2 _ hmem with h0 | ⟨j, t, ht, hok⟩
      · exact h0
      · simp only [EventOk] at hok
        obtain ⟨hj, h8, _⟩ := hok
        subst hj
        have := hrank t ht
        omega
    · rintro ⟨_, hdone⟩
      obtain ⟨t, ht, _⟩ := (reach_view w repo name views tr0 _ hreach i).2 v hv
      have h4 := hrank t ht
      have hmem : t ∈ (runSchedule w repo name (spawn fs tr0 views) sched).tasks :=
        List.mem_iff_getElem?.mpr ⟨i, ht⟩
      simp only [allDone, List.all_eq_true, decide_eq_true_eq] at hdone
      rw [hdone t hmem] at h4
      simp [Pc.rank] at h4
  · have hvi : views[i] = v := by
      rw [List.getElem?_eq_getElem hi] at hv
      exact Option.some.inj hv
    subst hvi
    simp [List.replicate, runSchedule, Proc.step, spawn, stepTask, Proc.setTask, Proc.fatal,
      newTask, hview, hp1, hp2, hi]
  · have hvi : views[i] = v := by
      rw [List.getElem?_eq_getElem hi] at hv
      exact Option.some.inj hv
    subst hvi
    simp [List.replicate, runSchedule, Proc.step, spawn, stepTask, Proc.setTask, Proc.fatal,
      newTask, hview, hp1, hp2, hi]

/-! ## The claims about the calls -/

/-- C7, as the code has it. The goroutine of a release looks the release up
by its display name: every `gh release view` in the log that a goroutine made
has the field `Name` of the release of that goroutine as its argument, and the
first step of the goroutine of a release makes that call. -/
theorem view_query_uses_name (w : World) (repo : ConfigRepository) (name : String)
    (views : List ReleaseShortView) (fs : FileSystem) (tr0 : List Event) (i : Nat)
    (v : ReleaseShortView) (hv : views[i]? = some v) :
    (∀ (sched : List Nat) (rel r : String),
      Event.releaseView i rel r ∈ (runSchedule w repo name (spawn fs tr0 views) sched).trace →
      Event.releaseView i rel r ∈ tr0 ∨ (rel = v.Name ∧ r = repo.Repository)) ∧
    (runSchedule w repo name (spawn fs tr0 views) [i]).trace
      = tr0 ++ [Event.releaseView i v.Name repo.Repository] := by
  constructor
  · intro sched rel r hmem
    have hreach := reach_runSchedule w repo name views fs tr0 sched
    rcases hreach.2.2 _ hmem with h0 | ⟨j, t, ht, hok⟩
    · exact Or.inl h0
    · right
      simp only [EventOk] at hok
      obtain ⟨hj, hrel, hr⟩ := hok
      subst hj
      obtain ⟨v', hv', hkey⟩ := (reach_view w repo name views tr0 _ hreach i).1 t ht
      rw [hv] at hv'
      cases hv'
      simp only [keyOf, viewKey, Prod.mk.injEq] at hkey
      exact ⟨by rw [hrel, hkey.1], hr⟩
  · have hi : i < views.length := by
      rcases Nat.lt_or_ge i views.length with h | h
      · exact h
      · rw [List.getElem?_eq_none h] at hv; cases hv
    have hvi : views[i] = v := by
      rw [List.getElem?_eq_getElem hi] at hv
      exact Option.some.inj hv
    subst hvi
    simp [runSchedule, Proc.step, spawn, stepTask, Proc.setTask, newTask, hi]

/-- The release named `Release 2` with the tag `v2.0.0` is looked up as
`Release 2`. -/
theorem view_query_uses_name_witness :
    (runSchedule (okWorld namedViews) toolRepo "tool" (spawn [] [] namedViews) [0]).trace
      = [] ++ [Event.releaseView 0 (mkView "Release 2" "v2.0.0" true).Name toolRepo.Repository] :=
  (view_query_uses_name (okWorld namedViews) toolRepo "tool" namedViews [] [] 0
    (mkView "Release 2" "v2.0.0" true) rfl).2

/-- C7 fails as stated: for the release with the display name `Release 2` and
the tag `v2.0.0` the program runs `gh release view "Release 2"`, and never
asks for `v2.0.0`. -/
theorem view_query_not_by_tag :
    (namedViews.map fun v => (v.Name, v.TagName)) = [("Release 2", "v2.0.0")] ∧
    (runRepository (okWorld namedViews) toolRepo oneAfterTheOther []).status = .done ∧
    Event.releaseView 0 "Release 2" "org/tool" ∈
      (runRepository (okWorld namedViews) toolRepo oneAfterTheOther []).trace ∧
    ∀ i r, Event.releaseView i "v2.0.0" r ∉
      (runRepository (okWorld namedViews) toolRepo oneAfterTheOther []).trace := by
  have htrace : (runRepository (okWorld namedViews) toolRepo oneAfterTheOther []).trace
      = [Event.releaseList "org/tool", Event.releaseView 0 "Release 2" "org/tool",
         Event.httpGet 0 "https://example.org/Release 2.tar.gz",
         Event.create 0 "./Formula/tool@200.rb", Event.create 0 "./Formula/tool.rb"] := by
    decide
  refine ⟨by decide, by decide, ?_, ?_⟩
  · rw [htrace]; decide
  · intro i r
    rw [htrace]
    simp

/-! ## The claims about the digest -/

/-- C6, as the code has it. `GetUrlFileHashSHA256` fails exactly when the
connection fails or reading the body fails, with the error of the failing
call and the empty string; for every response whose body is read it gives the
digest of the body, whatever the status code of the response. -/
theorem hash_fails_on_connection_or_read (w : World) (url : String) :
    (∀ e, w.httpGet url = .error e → GetUrlFileHashSHA256 w url = ("", some e)) ∧
    (∀ resp e, w.httpGet url = .ok resp → resp.Body = .error e →
      GetUrlFileHashSHA256 w url = ("", some e)) ∧
    (∀ resp body, w.httpGet url = .ok resp → resp.Body = .ok body →
      GetUrlFileHashSHA256 w url = (Sprintf_x (Sum256 body), none)) ∧
    ((GetUrlFileHashSHA256 w url).2 = none ↔
      ∃ resp body, w.httpGet url = .ok resp ∧ resp.Body = .ok body) := by
  refine ⟨?_, ?_, ?_, ?_⟩
  · intro e h
    simp [GetUrlFileHashSHA256, h]
  · intro resp e h hb
    simp [GetUrlFileHashSHA256, h, hb]
  · intro resp body h hb
    simp [GetUrlFileHashSHA256, h, hb]
  · constructor
    · intro h
      obtain ⟨resp, body, h1, h2, _⟩ := GetUrlFileHashSHA256_ok w url h
      exact ⟨resp, body, h1, h2⟩
    · rintro ⟨resp, body, h1, h2⟩
      simp [GetUrlFileHashSHA256, h1, h2]

set_option maxRecDepth 1000000 in
/-- C6 fails as stated: a response with the status 404 whose body is read is
hashed like any other, and no error is returned. -/
theorem status_404_is_hashed :
    notFoundWorld.httpGet "https://example.org/v1.0.0.tar.gz"
      = .ok ⟨404, .ok (bytesOf "Not Found")⟩ ∧
    GetUrlFileHashSHA256 notFoundWorld "https://example.org/v1.0.0.tar.gz"
      = ("0019dfc4b32d63c1392aa264aed2253c1e0c2fb09216f8e2cc269bbfb8bb49b5", none) := by
  constructor
  · rfl
  · decide

set_option maxRecDepth 1000000 in
/-- The function `Sum256` on the test vector `abc` of the standard. -/
theorem Sum256_abc :
    Sprintf_x (Sum256 (bytesOf "abc"))
      = "ba7816bf8f01cfea414140de5dae2223b00361a396177a9cb410ff61f20015ad" := by
  decide

/-! ## The digest is of the whole body -/

theorem blockAt_succ (p : Bytes) (i : Nat) : blockAt p (i + 1) = blockAt (p.drop 64) i := by
  unfold blockAt
  rw [List.drop_drop]
  congr 2
  omega

theorem blockAt_zero (p : Bytes) : blockAt p 0 = p.take 64 := by
  simp [blockAt]

theorem hashAfter_succ_drop (hs : List Nat) (p : Bytes) (n : Nat) :
    hashAfter hs p (n + 1) = hashAfter (sha256Block hs (p.take 64)) (p.drop 64) n := by
  induction n with
  | zero => simp [hashAfter, blockAt_zero]
  | succ n ih =>
    rw [hashAfter, ih, blockAt_succ]
    rfl

/-- The loop over the blocks computes the hash values of the standard. -/
theorem sha256Blocks_eq_hashAfter (n : Nat) : ∀ (hs : List Nat) (p : Bytes),
    sha256Blocks n hs p = hashAfter hs p n := by
  induction n with
  | zero => intro hs p; rfl
  | succ n ih =>
    intro hs p
    rw [sha256Blocks, ih, hashAfter_succ_drop]

/-- The blocks of a message whose length is a multiple of 64 make up the
message: no byte is left out. -/
theorem blocks_cover (n : Nat) : ∀ (p : Bytes), p.length = 64 * n →
    (List.range n).flatMap (blockAt p) = p := by
  induction n with
  | zero =>
    intro p hp
    simp at hp
    simp [hp]
  | succ n ih =>
    intro p hp
    rw [List.range_succ_eq_map, List.flatMap_cons, List.flatMap_map, blockAt_zero]
    have h1 : (List.range n).flatMap (fun i => blockAt p (i + 1))
        = (List.range n).flatMap (blockAt (p.drop 64)) := by
      congr 1
      funext i
      exact blockAt_succ p i
    have h2 : (List.range n).flatMap (fun a => blockAt p a.succ)
        = (List.range n).flatMap (fun i => blockAt p (i + 1)) := rfl
    rw [h2, h1, ih (p.drop 64) (by simp; omega), List.take_append_drop]

theorem sha256Pad_eq (msg : Bytes) :
    sha256Pad msg = msg.map (· % 256) ++ [128]
      ++ List.replicate ((119 - msg.length % 64) % 64) 0 ++ lengthBytes (8 * msg.length) := rfl

theorem sha256Pad_length (msg : Bytes) :
    (sha256Pad msg).length = 64 * ((msg.length + 72) / 64) := by
  rw [sha256Pad_eq]
  simp [lengthBytes]
  omega

theorem Sum256_eq_digestBytes (msg : Bytes) :
    Sum256 msg = digestBytes (hashAfter sha256Init (sha256Pad msg) ((msg.length + 72) / 64)) := by
  have hn : (sha256Pad msg).length / 64 = (msg.length + 72) / 64 := by
    rw [sha256Pad_length]
    omega
  unfold Sum256
  simp only []
  rw [hn, sha256Blocks_eq_hashAfter]
  simp [digestBytes, List.range, List.range.loop, List.flatMap, List.flatten]

/-- The eight bytes at the end of the padding spell the length in bits. -/
theorem bigEndian_lengthBytes (bits : Nat) : bigEndian (lengthBytes bits) = bits % 2 ^ 64 := by
  simp only [bigEndian, lengthBytes, List.range, List.range.loop, List.map, List.foldl,
    Nat.shiftRight_eq_div_pow]
  norm_num
  omega

set_option maxRecDepth 1000000 in
/-- C9. For every body that was downloaded, `GetUrlFileHashSHA256` gives the
lowercase hexadecimal text of the SHA-256 digest of the whole body: 64
characters, each one of `0` to `9` or `a` to `f`, never the empty string, and
the same for the same bytes, whatever the URL and the rest of the response.
The digest is of the complete body: the padded message is the body, the byte
128, fewer than 64 zeros and the length of the body in bits, a whole number of
blocks that together are the padded message, and the digest is the hash value
of the standard after the last of these blocks. On the test vectors of the
standard, of one block, of two and of four, and on two bodies of 200 bytes
that differ in the last byte only, the function gives the known digests. -/
theorem digest_is_lowercase_hex_sha256 (w : World) (url : String)
    (h : (GetUrlFileHashSHA256 w url).2 = none) :
    (∃ resp body, w.httpGet url = .ok resp ∧ resp.Body = .ok body ∧
      (GetUrlFileHashSHA256 w url).1 = Sprintf_x (Sum256 body) ∧
      (GetUrlFileHashSHA256 w url).1.length = 64 ∧
      (∀ c ∈ (GetUrlFileHashSHA256 w url).1.data, isLowerHex c) ∧
      (GetUrlFileHashSHA256 w url).1 ≠ "" ∧
      (∀ (w2 : World) (url2 : String) (resp2 : Response),
        w2.httpGet url2 = .ok resp2 → resp2.Body = .ok body →
        GetUrlFileHashSHA256 w2 url2 = GetUrlFileHashSHA256 w url) ∧
      (∃ z, z < 64 ∧ (body.length + 1 + z + 8) % 64 = 0 ∧
        sha256Pad body = body.map (· % 256) ++ [128] ++ List.replicate z 0
          ++ lengthBytes (8 * body.length)) ∧
      bigEndian (lengthBytes (8 * body.length)) = (8 * body.length) % 2 ^ 64 ∧
      (List.range ((body.length + 72) / 64)).flatMap (blockAt (sha256Pad body))
        = sha256Pad body ∧
      Sum256 body
        = digestBytes (hashAfter sha256Init (sha256Pad body) ((body.length + 72) / 64))) ∧
    GetUrlFileHashSHA256 (servingWorld []) "https://example.org/v1.0.0.tar.gz"
      = ("e3b0c44298fc1c149afbf4c8996fb92427ae41e4649b934ca495991b7852b855", none) ∧
    GetUrlFileHashSHA256 (servingWorld (bytesOf "abc")) "https://example.org/v1.0.0.tar.gz"
      = ("ba7816bf8f01cfea414140de5dae2223b00361a396177a9cb410ff61f20015ad", none) ∧
    GetUrlFileHashSHA256
        (servingWorld (bytesOf "abcdbcdecdefdefgefghfghighijhijkijkljklmklmnlmnomnopnopq"))
        "https://example.org/v1.0.0.tar.gz"
      = ("248d6a61d20638b8e5c026930c3e6039a33ce45964ff2167f6ecedd419db06c1", none) ∧
    GetUrlFileHashSHA256 (servingWorld (List.replicate 200 97))
        "https://example.org/v1.0.0.tar.gz"
      = ("c2a908d98f5df987ade41b5fce213067efbcc21ef2240212a41e54b5e7c28ae5", none) ∧
    GetUrlFileHashSHA256 (servingWorld (List.replicate 199 97 ++ [98]))
        "https://example.org/v1.0.0.tar.gz"
      = ("6771c3d35a9e9d0dc42c475f20b2ef3f5067e6edc1d4687d23de430c782becfa", none) := by
  obtain ⟨resp, body, h1, h2, h3⟩ := GetUrlFileHashSHA256_ok w url h
  have hlen : (Sprintf_x (Sum256 body)).length = 64 := by
    rw [Sprintf_x_length, Sum256_length]
  refine ⟨⟨resp, body, h1, h2, by rw [h3], by rw [h3]; exact hlen, ?_, ?_, ?_, ?_,
    bigEndian_lengthBytes _, ?_, Sum256_eq_digestBytes body⟩,
    by decide, by decide, by decide, by decide, by decide⟩
  · rw [h3]
    exact Sprintf_x_lower _
  · rw [h3]
    intro he
    have := congrArg String.length he
    simp only at this
    rw [hlen] at this
    cases this
  · intro w2 url2 resp2 hg hb
    rw [h3]
    simp [GetUrlFileHashSHA256, hg, hb]
  · exact ⟨(119 - body.length % 64) % 64, by omega, by omega, sha256Pad_eq body⟩
  · exact blocks_cover _ _ (sha256Pad_length body)

/-- The digest of the body that the server of `okWorld` sends. -/
theorem digest_is_lowercase_hex_sha256_witness :
    ∃ resp body, (okWorld toolViews).httpGet "abc" = .ok resp ∧ resp.Body = .ok body ∧
      (GetUrlFileHashSHA256 (okWorld toolViews) "abc").1 = Sprintf_x (Sum256 body) ∧
      (GetUrlFileHashSHA256 (okWorld toolViews) "abc").1.length = 64 ∧
      (∀ c ∈ (GetUrlFileHashSHA256 (okWorld toolViews) "abc").1.data, isLowerHex c) ∧
      (GetUrlFileHashSHA256 (okWorld toolViews) "abc").1 ≠ "" ∧
      (∀ (w2 : World) (url2 : String) (resp2 : Response),
        w2.httpGet url2 = .ok resp2 → resp2.Body = .ok body →
        GetUrlFileHashSHA256 w2 url2 = GetUrlFileHashSHA256 (okWorld toolViews) "abc") ∧
      (∃ z, z < 64 ∧ (body.length + 1 + z + 8) % 64 = 0 ∧
        sha256Pad body = body.map (· % 256) ++ [128] ++ List.replicate z 0
          ++ lengthBytes (8 * body.length)) ∧
      bigEndian (lengthBytes (8 * body.length)) = (8 * body.length) % 2 ^ 64 ∧
      (List.range ((body.length + 72) / 64)).flatMap (blockAt (sha256Pad body))
        = sha256Pad body ∧
      Sum256 body
        = digestBytes (hashAfter sha256Init (sha256Pad body) ((body.length + 72) / 64)) :=
  (digest_is_lowercase_hex_sha256 (okWorld toolViews) "abc" rfl).1

/-! ## Several releases flagged latest -/

/-- On a list without `nil` elements the loop of lines 175 to 181 ends with
the last release flagged latest, or with what `latest` held when none is. -/
theorem latestLoop_keeps_last : ∀ (l : List ReleaseShortView) (latest : Option ReleaseShortView),
    latestLoop (l.map some) latest
      = .ok (((l.filter fun v => v.IsLatest).getLast?).or latest) := by
  intro l
  induction l with
  | nil => intro latest; simp [latestLoop]
  | cons x xs ih =>
    intro latest
    simp only [List.map_cons, latestLoop]
    rw [ih, List.filter_cons]
    by_cases hx : x.IsLatest = true
    · simp only [hx, if_true]
      rw [List.getLast?_cons]
      cases (xs.filter fun v => v.IsLatest).getLast? <;> simp
    · simp only [hx, Bool.false_eq_true, if_false]

/-- A goroutine that has not returned keeps the run from being done. -/
theorem allDone_false_of (p : Proc) (i : Nat) (t : TaskState) (ht : p.tasks[i]? = some t)
    (hpc : t.pc ≠ .done) : allDone p = false := by
  cases h : allDone p with
  | false => rfl
  | true =>
    simp only [allDone, List.all_eq_true, decide_eq_true_eq] at h
    exact absurd (h t (List.mem_iff_getElem?.mpr ⟨i, ht⟩)) hpc

/-- C4, as the code has it. A list of releases in which more than one entry
is flagged latest passes the checks before the goroutines start, as any list
with a flagged entry does: the loop of lines 175 to 181 keeps the last flagged
entry as `latest`, the test of `latest == nil` passes, and, when the template
parses, the listing runs and decodes and no entry is `nil`, the setup succeeds
and one goroutine is started for every release: before any step is taken the
run is under way with nothing written, the first step of the goroutine of each
release is its `gh release view`, and there is no goroutine beyond the releases
of the list. -/
theorem several_latest_pass_setup (w : World) (repo : ConfigRepository) (fs : FileSystem)
    (views : List ReleaseShortView)
    (hparse : w.ParseFiles repo.TemplateFileName = none)
    (hrun : (w.ghReleaseList repo.Repository).err = none)
    (hjson : w.unmarshalShortViews (w.ghReleaseList repo.Repository).stdout
      = (views.map some, none))
    (hmany : 1 < (views.filter fun v => v.IsLatest).length) :
    ∃ name last, lastSegment repo.Repository = some name ∧
      (views.filter fun v => v.IsLatest).getLast? = some last ∧
      latestLoop (w.unmarshalShortViews (w.ghReleaseList repo.Repository).stdout).1 none
        = .ok (some last) ∧
      setup w repo = ([Event.releaseList repo.Repository], .ok (name, views)) ∧
      (runRepository w repo [] fs).status = .running ∧
      (runRepository w repo [] fs).fs = fs ∧
      (runRepository w repo [] fs).trace = [Event.releaseList repo.Repository] ∧
      (∀ i v, views[i]? = some v →
        (runRepository w repo [i] fs).status = .running ∧
        (runRepository w repo [i] fs).fs = fs ∧
        (runRepository w repo [i] fs).trace
          = [Event.releaseList repo.Repository,
             Event.releaseView i v.Name repo.Repository]) ∧
      (∀ i, views[i]? = none →
        (runRepository w repo [i] fs).status = .running ∧
        (runRepository w repo [i] fs).fs = fs ∧
        (runRepository w repo [i] fs).trace = [Event.releaseList repo.Repository]) := by
  have hex : ∃ v, v ∈ views ∧ v.IsLatest = true := by
    cases hf : views.filter (fun v => v.IsLatest) with
    | nil => rw [hf] at hmany; simp at hmany
    | cons v rest =>
      have hm : v ∈ views.filter (fun v => v.IsLatest) := by rw [hf]; simp
      rw [List.mem_filter] at hm
      exact ⟨v, hm.1, hm.2⟩
  obtain ⟨v, hv1, hv2⟩ := hex
  obtain ⟨name, hname, hs⟩ := setup_ok w repo hparse hrun (by rw [hjson])
    (by rw [hjson]; intro x hx; simp at hx; obtain ⟨a, _, ha⟩ := hx; rw [← ha]; simp)
    ⟨v, by rw [hjson]; simp [hv1], hv2⟩
  have hs' : setup w repo = ([Event.releaseList repo.Repository], .ok (name, views)) := by
    rw [hs, hjson]
    simp [List.filterMap_map]
  obtain ⟨last, hlast⟩ : ∃ last, (views.filter fun v => v.IsLatest).getLast? = some last := by
    cases hg : (views.filter fun v => v.IsLatest).getLast? with
    | none =>
      rw [List.getLast?_eq_none_iff] at hg
      rw [hg] at hmany
      simp at hmany
    | some last => exact ⟨last, rfl⟩
  obtain ⟨i0, hi0⟩ := List.mem_iff_getElem?.mp hv1
  have hspawn : ∀ (i : Nat) (u : ReleaseShortView), views[i]? = some u →
      (spawn fs [Event.releaseList repo.Repository] views).tasks[i]? = some (newTask u) := by
    intro i u hu
    simp [spawn, hu]
  have hidle : (runRepository w repo [] fs).status = .running ∧
      (runRepository w repo [] fs).fs = fs ∧
      (runRepository w repo [] fs).trace = [Event.releaseList repo.Repository] := by
    have hd : allDone (runSchedule w repo name
        (spawn fs [Event.releaseList repo.Repository] views) []) = false :=
      allDone_false_of _ i0 (newTask v) (hspawn i0 v hi0) (by simp [newTask])
    simp only [runRepository, hs']
    rw [hd]
    simp [runSchedule, spawn]
  refine ⟨name, last, hname, hlast, ?_, hs', hidle.1, hidle.2.1, hidle.2.2, ?_, ?_⟩
  · rw [hjson, latestLoop_keeps_last, hlast]
    rfl
  · intro i u hu
    have hi : i < views.length := by
      rcases Nat.lt_or_ge i views.length with h | h
      · exact h
      · rw [List.getElem?_eq_none h] at hu; cases hu
    have hstep : runSchedule w repo name (spawn fs [Event.releaseList repo.Repository] views) [i]
        = stepTask w repo name i (newTask u)
            (spawn fs [Event.releaseList repo.Repository] views) :=
      Proc.step_eq w repo name _ i (newTask u) rfl (hspawn i u hu)
    have hd : allDone (runSchedule w repo name
        (spawn fs [Event.releaseList repo.Repository] views) [i]) = false := by
      apply allDone_false_of _ i
        { newTask u with pc := .checkView,
                         stdout := (w.ghReleaseView u.Name repo.Repository).stdout,
                         stderr := (w.ghReleaseView u.Name repo.Repository).stderr }
      · rw [hstep]
        simp [stepTask, newTask, Proc.setTask, spawn, hi]
      · simp
    simp only [runRepository, hs']
    rw [hd, hstep]
    simp [stepTask, newTask, Proc.setTask, spawn]
  · intro i hnone
    have hstep : runSchedule w repo name (spawn fs [Event.releaseList repo.Repository] views) [i]
        = spawn fs [Event.releaseList repo.Repository] views := by
      simp [runSchedule, Proc.step, spawn, hnone]
    have hd : allDone (runSchedule w repo name
        (spawn fs [Event.releaseList repo.Repository] views) [i]) = false := by
      rw [hstep]
      exact allDone_false_of _ i0 (newTask v) (hspawn i0 v hi0) (by simp [newTask])
    simp only [runRepository, hs']
    rw [hd, hstep]
    simp [spawn]

/-- Two releases, both flagged latest: the loop keeps the second, and the
goroutine of each of the two is started. -/
theorem several_latest_pass_setup_witness :
    (twoLatestViews.filter fun v => v.IsLatest).getLast?
        = some (mkView "v2.0.0" "v2.0.0" true) ∧
    ∃ name last, lastSegment toolRepo.Repository = some name ∧
      (twoLatestViews.filter fun v => v.IsLatest).getLast? = some last ∧
      latestLoop ((okWorld twoLatestViews).unmarshalShortViews
          ((okWorld twoLatestViews).ghReleaseList toolRepo.Repository).stdout).1 none
        = .ok (some last) ∧
      setup (okWorld twoLatestViews) toolRepo
        = ([Event.releaseList toolRepo.Repository], .ok (name, twoLatestViews)) ∧
      (runRepository (okWorld twoLatestViews) toolRepo [] []).status = .running ∧
      (runRepository (okWorld twoLatestViews) toolRepo [] []).fs = [] ∧
      (runRepository (okWorld twoLatestViews) toolRepo [] []).trace
        = [Event.releaseList toolRepo.Repository] ∧
      (∀ i v, twoLatestViews[i]? = some v →
        (runRepository (okWorld twoLatestViews) toolRepo [i] []).status = .running ∧
        (runRepository (okWorld twoLatestViews) toolRepo [i] []).fs = [] ∧
        (runRepository (okWorld twoLatestViews) toolRepo [i] []).trace
          = [Event.releaseList toolRepo.Repository,
             Event.releaseView i v.Name toolRepo.Repository]) ∧
      (∀ i, twoLatestViews[i]? = none →
        (runRepository (okWorld twoLatestViews) toolRepo [i] []).status = .running ∧
        (runRepository (okWorld twoLatestViews) toolRepo [i] []).fs = [] ∧
        (runRepository (okWorld twoLatestViews) toolRepo [i] []).trace
          = [Event.releaseList toolRepo.Repository]) :=
  ⟨by decide,
   several_latest_pass_setup (okWorld twoLatestViews) toolRepo [] twoLatestViews rfl rfl rfl
    (by decide)⟩

/-- C4 fails as stated: with two releases flagged latest the program does not
stop before the goroutines; it runs to the end and writes the three files. -/
theorem two_latest_not_rejected :
    (twoLatestViews.filter fun v => v.IsLatest).length = 2 ∧
    (runRepository (okWorld twoLatestViews) toolRepo oneAfterTheOther []).status = .done ∧
    (runRepository (okWorld twoLatestViews) toolRepo oneAfterTheOther []).fs.map Prod.fst
      = ["./Formula/tool.rb", "./Formula/tool@200.rb", "./Formula/tool@100.rb"] := by
  refine ⟨by decide, by decide, by decide⟩

/-! ## The variable `err` that the goroutines share -/

/-- C10, where the code departs from it. The download of the first release
fails. When the goroutines run one after the other the program ends with
`can not get sha256 TarballUrl`; when the other goroutine assigns `err`
between the failed download and its test, the failure is lost: the run
completes and the file of the first release is written with an empty digest. -/
theorem lost_error_completes_run :
    (GetUrlFileHashSHA256 brokenDownloadWorld "https://example.org/v1.0.0.tar.gz")
      = ("", some "connection refused") ∧
    (main brokenDownloadWorld [oneAfterTheOther] []).status
      = .exited (.fatal "can not get sha256 TarballUrl") ∧
    (main brokenDownloadWorld [interleaved] []).status = .done ∧
    Event.httpGet 0 "https://example.org/v1.0.0.tar.gz" ∈
      (main brokenDownloadWorld [interleaved] []).trace ∧
    readFile (main brokenDownloadWorld [interleaved] []).fs
        "./Formula/tool@100.rb"
      = some (bytesOf "https://example.org/v1.0.0.tar.gz ") := by
  refine ⟨by decide, by decide, by decide, by decide, by decide⟩

/-! ## The files -/

theorem readFile_filter_ne (fs : FileSystem) (f g : String) (h : f ≠ g) :
    readFile (fs.filter fun e => decide (e.1 ≠ f)) g = readFile fs g := by
  induction fs with
  | nil => rfl
  | cons e rest ih =>
    obtain ⟨n, d⟩ := e
    rw [List.filter_cons]
    by_cases hn : n = f
    · have hng : n ≠ g := by rw [hn]; exact h
      rw [if_neg (by simpa using hn), ih, readFile, if_neg hng]
    · rw [if_pos (by simpa using hn), readFile, readFile, ih]

theorem readFile_putFile_same (fs : FileSystem) (f : String) (d : Bytes) :
    readFile (putFile fs f d) f = some d := by
  simp [putFile, readFile]

theorem readFile_putFile_ne (fs : FileSystem) (f g : String) (d : Bytes) (h : f ≠ g) :
    readFile (putFile fs f d) g = readFile fs g := by
  simp only [putFile, readFile, if_neg h]
  exact readFile_filter_ne fs f g h

theorem writeAt0_fresh (data : Bytes) : writeAt0 (some []) data data.length = data := by
  simp [writeAt0]

/-- The name of a versioned file is never the name of the alias file. -/
theorem versioned_ne_alias (name tag : String) :
    versionedFileName name tag ≠ aliasFileName name := by
  intro h
  have := congrArg String.data h
  simp only [versionedFileName, aliasFileName, String.data_append, List.append_assoc] at this
  have h2 := List.append_cancel_left (List.append_cancel_left this)
  revert h2
  simp only [show "@".data = ['@'] from rfl, show ".rb".data = ['.', 'r', 'b'] from rfl,
    List.singleton_append]
  intro h2
  have := List.head_eq_of_cons_eq h2
  revert this
  decide

/-- Versioned files with the same name have the same version token. -/
theorem versionedFileName_inj (name a b : String)
    (h : versionedFileName name a = versionedFileName name b) :
    versionToken a = versionToken b := by
  have := congrArg String.data h
  simp only [versionedFileName, String.data_append, List.append_assoc] at this
  have h2 := List.append_cancel_left (List.append_cancel_left (List.append_cancel_left this))
  have h3 := List.append_cancel_right h2
  exact String.ext h3

/-- What a step that does not end the process does to the files: nothing, or
it replaces the content of one file that the goroutine has created by then,
the alias file only for a release flagged latest; and the goroutine finds its
files as the step left them. -/
theorem stepTask_files (w : World) (repo : ConfigRepository) (name : String) (i : Nat)
    (t : TaskState) (p : Proc) (ht : p.tasks[i]? = some t) (hok : FileOk name p.fs t)
    (he : p.exit = none) (hex : (stepTask w repo name i t p).exit = none) :
    ∃ t', (stepTask w repo name i t p).tasks[i]? = some t' ∧
      FileOk name (stepTask w repo name i t p).fs t' ∧
      ((stepTask w repo name i t p).fs = p.fs ∨
        ∃ f d, (stepTask w repo name i t p).fs = putFile p.fs f d ∧ Created name t' f ∧
          (f = aliasFileName name → t.view.IsLatest = true)) := by
  have hi : i < p.tasks.length := by
    rcases Nat.lt_or_ge i p.tasks.length with h | h
    · exact h
    · rw [List.getElem?_eq_none h] at ht; cases ht
  obtain ⟨h1, h2, h3, h4, h5⟩ := hok
  revert hex
  unfold stepTask
  cases hpc : t.pc <;> simp only [hpc, Pc.rank] at h1 h2 h3 h4 h5 <;>
    simp only [stepCreate, stepWrite, stepClose, Proc.setTask, Proc.fatal] <;>
    (repeat' split) <;>
    simp only [List.getElem?_set_self hi, ht, he, Option.some.injEq, exists_eq_left',
      reduceCtorEq, false_implies, implies_true] <;>
    intro _
  all_goals
    refine ⟨?_, ?_⟩
    · simp_all [FileOk, Pc.rank, readFile_putFile_same, writeAt0_fresh, readFile_putFile_ne,
        versioned_ne_alias, Ne.symm (versioned_ne_alias _ _)]
    · first
        | exact Or.inl trivial
        | exact Or.inl rfl
        | (refine Or.inr ⟨_, _, rfl, ?_, ?_⟩
           · simp_all [Created, Pc.rank]
           · simp_all [versioned_ne_alias])

/-- A write to a file that is not a file of the goroutine leaves what the
goroutine finds in its files. -/
theorem FileOk_putFile_frame (name : String) (fs : FileSystem) (t : TaskState) (f : String)
    (d : Bytes) (hok : FileOk name fs t)
    (hv : f ≠ versionedFileName name t.view.TagName)
    (ha : f = aliasFileName name → t.view.IsLatest = false) :
    FileOk name (putFile fs f d) t := by
  obtain ⟨h1, h2, h3, h4, h5⟩ := hok
  refine ⟨?_, ?_, h3, ?_, ?_⟩
  · intro hpc
    rw [readFile_putFile_ne _ _ _ _ hv]
    exact h1 hpc
  · intro hr
    rw [readFile_putFile_ne _ _ _ _ hv]
    exact h2 hr
  · intro hpc
    by_cases hfa : f = aliasFileName name
    · have := h3 (by simp [hpc, Pc.rank]) (by simp [hpc, Pc.rank])
      rw [ha hfa] at this
      cases this
    · rw [readFile_putFile_ne _ _ _ _ hfa]
      exact h4 hpc
  · intro hr hl
    by_cases hfa : f = aliasFileName name
    · rw [ha hfa] at hl
      cases hl
    · rw [readFile_putFile_ne _ _ _ _ hfa]
      exact h5 hr hl

theorem Created_mono (name : String) (t t' : TaskState) (f : String)
    (hk : keyOf t' = keyOf t) (hr : t.pc.rank ≤ t'.pc.rank) (h : Created name t f) :
    Created name t' f := by
  simp only [keyOf, Prod.mk.injEq] at hk
  rcases h with ⟨h1, h2⟩ | ⟨h1, h2, h3⟩
  · exact Or.inl ⟨by rw [hk.2.1]; exact h1, by omega⟩
  · exact Or.inr ⟨h1, by omega, by rw [hk.2.2]; exact h3⟩

theorem filesOk_spawn (name : String) (fs : FileSystem) (tr0 : List Event)
    (views : List ReleaseShortView) : FilesOk name fs (spawn fs tr0 views) := by
  intro _
  constructor
  · intro i t ht
    simp only [spawn, List.getElem?_map] at ht
    cases hv : views[i]? with
    | none => rw [hv] at ht; cases ht
    | some v =>
      rw [hv] at ht
      simp only [Option.map_some', Option.some.injEq] at ht
      subst ht
      simp [FileOk, newTask, Pc.rank]
  · intro f hf
    exact Or.inl hf

/-- Every step keeps the files in order when the releases have separate
version tokens and at most one of them is flagged latest. -/
theorem filesOk_step (w : World) (repo : ConfigRepository) (name : String)
    (views : List ReleaseShortView) (tr0 : List Event) (fs0 : FileSystem)
    (hsep : Separate views) (p : Proc) (k : Nat) (t : TaskState)
    (hreach : Reach w repo name views tr0 p) (hf : FilesOk name fs0 p)
    (he : p.exit = none) (ht : p.tasks[k]? = some t) :
    FilesOk name fs0 (stepTask w repo name k t p) := by
  intro hex
  obtain ⟨hall, hdom⟩ := hf he
  obtain ⟨t', ht', hok', hfs⟩ := stepTask_files w repo name k t p ht (hall k t ht) he hex
  obtain ⟨t1, ht1, hkey, hrank⟩ := stepTask_tasks_self w repo name k t p ht
  rw [ht'] at ht1
  cases ht1
  obtain ⟨a, ha, hka⟩ := (reach_view w repo name views tr0 p hreach k).1 t ht
  simp only [keyOf, viewKey, Prod.mk.injEq] at hka hkey
  constructor
  · intro j tj htj
    by_cases hkj : k = j
    · subst hkj
      rw [ht'] at htj
      cases htj
      exact hok'
    · rw [stepTask_tasks_ne w repo name k j t p hkj] at htj
      have hokj := hall j tj htj
      rcases hfs with hsame | ⟨f, d, hput, hcr, hal⟩
      · rw [hsame]; exact hokj
      · rw [hput]
        obtain ⟨b, hb, hkb⟩ := (reach_view w repo name views tr0 p hreach j).1 tj htj
        simp only [keyOf, viewKey, Prod.mk.injEq] at hkb
        rcases hcr with ⟨hfv, _⟩ | ⟨hfa, _, _⟩
        · apply FileOk_putFile_frame name p.fs tj f d hokj
          · intro hfj
            rw [hfv] at hfj
            have htok := versionedFileName_inj name _ _ hfj
            rw [hkey.2.1, hka.2.1, hkb.2.1] at htok
            exact hkj (hsep.1 k j a b ha hb htok)
          · intro hfa
            rw [hfv] at hfa
            exact absurd hfa (versioned_ne_alias _ _)
        · apply FileOk_putFile_frame name p.fs tj f d hokj
          · rw [hfa]
            exact Ne.symm (versioned_ne_alias _ _)
          · intro _
            cases hlj : tj.view.IsLatest with
            | false => rfl
            | true =>
              have hlk := hal hfa
              rw [hka.2.2] at hlk
              rw [hkb.2.2] at hlj
              exact absurd (hsep.2 k j a b ha hb hlk hlj) hkj
  · intro f hf
    have hold : (readFile p.fs f).isSome = true →
        (readFile fs0 f).isSome = true ∨
          ∃ (i : Nat) (ti : TaskState),
            (stepTask w repo name k t p).tasks[i]? = some ti ∧ Created name ti f := by
      intro h
      rcases hdom f h with h0 | ⟨i, ti, hti, hc⟩
      · exact Or.inl h0
      · right
        by_cases hki : k = i
        · subst hki
          rw [ht] at hti
          cases hti
          exact ⟨k, t', ht', Created_mono name t t' f (by simp [keyOf, hkey]) hrank hc⟩
        · exact ⟨i, ti, by rw [stepTask_tasks_ne w repo name k i t p hki]; exact hti, hc⟩
    rcases hfs with hsame | ⟨g, d, hput, hcr, _⟩
    · rw [hsame] at hf
      exact hold hf
    · by_cases hgf : g = f
      · subst hgf
        exact Or.inr ⟨k, t', ht', hcr⟩
      · rw [hput, readFile_putFile_ne _ _ _ _ hgf] at hf
        exact hold hf

/-- The files are in order after every schedule. -/
theorem filesOk_runSchedule (w : World) (repo : ConfigRepository) (name : String)
    (views : List ReleaseShortView) (fs : FileSystem) (tr0 : List Event)
    (hsep : Separate views) (sched : List Nat) :
    Reach w repo name views tr0 (runSchedule w repo name (spawn fs tr0 views) sched) ∧
    FilesOk name fs (runSchedule w repo name (spawn fs tr0 views) sched) :=
  runSchedule_induction w repo name
    (fun p => Reach w repo name views tr0 p ∧ FilesOk name fs p)
    (fun p i t hp he ht =>
      ⟨reach_step w repo name views tr0 p i t hp.1 ht,
       filesOk_step w repo name views tr0 fs hsep p i t hp.1 hp.2 he ht⟩)
    sched _ ⟨reach_spawn w repo name views fs tr0, filesOk_spawn name fs tr0 views⟩

/-- In a list without repetition an element has one position. -/
theorem nodup_getElem?_inj {α : Type} : ∀ (l : List α), l.Nodup →
    ∀ (i j : Nat) (a : α), l[i]? = some a → l[j]? = some a → i = j := by
  intro l
  induction l with
  | nil => intro _ i j a hi _; simp at hi
  | cons x xs ih =>
    intro hnd i j a hi hj
    rw [List.nodup_cons] at hnd
    cases i with
    | zero =>
      cases j with
      | zero => rfl
      | succ j =>
        simp only [List.getElem?_cons_zero, Option.some.injEq] at hi
        simp only [List.getElem?_cons_succ] at hj
        subst hi
        exact absurd (List.mem_iff_getElem?.mpr ⟨j, hj⟩) hnd.1
    | succ i =>
      cases j with
      | zero =>
        simp only [List.getElem?_cons_zero, Option.some.injEq] at hj
        simp only [List.getElem?_cons_succ] at hi
        subst hj
        exact absurd (List.mem_iff_getElem?.mpr ⟨i, hi⟩) hnd.1
      | succ j =>
        simp only [List.getElem?_cons_succ] at hi hj
        rw [ih hnd.2 i j a hi hj]

/-- When at most one element of a list passes a test, the elements that pass
it stand at one position. -/
theorem filter_le_one_inj {α : Type} (P : α → Bool) : ∀ (l : List α),
    (l.filter P).length ≤ 1 →
    ∀ (i j : Nat) (a b : α), l[i]? = some a → l[j]? = some b → P a = true → P b = true →
      i = j := by
  intro l
  induction l with
  | nil => intro _ i j a b hi; simp at hi
  | cons x xs ih =>
    intro hlen i j a b hi hj ha hb
    have hxs : (xs.filter P).length ≤ 1 := by
      rw [List.filter_cons] at hlen
      split at hlen
      · simp only [List.length_cons] at hlen; omega
      · exact hlen
    have hnone : P x = true → ∀ c ∈ xs, P c = true → False := by
      intro hx c hc hpc
      rw [List.filter_cons, if_pos hx] at hlen
      simp only [List.length_cons] at hlen
      have hmem : c ∈ xs.filter P := List.mem_filter.mpr ⟨hc, hpc⟩
      have : 0 < (xs.filter P).length := List.length_pos_of_mem hmem
      omega
    cases i with
    | zero =>
      cases j with
      | zero => rfl
      | succ j =>
        simp only [List.getElem?_cons_zero, Option.some.injEq] at hi
        simp only [List.getElem?_cons_succ] at hj
        subst hi
        exact absurd (hnone ha b (List.mem_iff_getElem?.mpr ⟨j, hj⟩) hb) id
    | succ i =>
      cases j with
      | zero =>
        simp only [List.getElem?_cons_zero, Option.some.injEq] at hj
        simp only [List.getElem?_cons_succ] at hi
        subst hj
        exact absurd (hnone hb a (List.mem_iff_getElem?.mpr ⟨i, hi⟩) ha) id
      | succ j =>
        simp only [List.getElem?_cons_succ] at hi hj
        rw [ih hxs i j a b hi hj ha hb]

/-- Releases with different version tokens, at most one of them flagged
latest, are separate. -/
theorem separate_of (views : List ReleaseShortView)
    (htok : (views.map fun v => versionToken v.TagName).Nodup)
    (hlatest : (views.filter fun v => v.IsLatest).length ≤ 1) : Separate views := by
  constructor
  · intro i j a b hi hj hab
    apply nodup_getElem?_inj _ htok i j (versionToken a.TagName)
    · rw [List.getElem?_map, hi]; rfl
    · rw [List.getElem?_map, hj, hab]; rfl
  · intro i j a b hi hj ha hb
    exact filter_le_one_inj (fun v => v.IsLatest) views hlatest i j a b hi hj ha hb

/-- Different version tokens give different names of versioned files. -/
theorem versioned_nodup (name : String) (views : List ReleaseShortView)
    (htok : (views.map fun v => versionToken v.TagName).Nodup) :
    (views.map fun v => versionedFileName name v.TagName).Nodup := by
  have h : (views.map fun v => versionedFileName name v.TagName)
      = (views.map fun v => versionToken v.TagName).map
          fun tok => "./Formula/" ++ name ++ "@" ++ tok ++ ".rb" := by
    rw [List.map_map]
    rfl
  rw [h]
  apply List.Nodup.map _ htok
  intro a b hab
  have := congrArg String.data hab
  simp only [String.data_append, List.append_assoc] at this
  have h2 := List.append_cancel_left (List.append_cancel_left (List.append_cancel_left this))
  exact String.ext (List.append_cancel_right h2)

/-- A run of a repository that is done went through the setup, and its
goroutines have all returned in a process that has not ended. -/
theorem runRepository_done (w : World) (repo : ConfigRepository) (sched : List Nat)
    (fs : FileSystem) (h : (runRepository w repo sched fs).status = .done) :
    ∃ name views tr, setup w repo = (tr, .ok (name, views)) ∧
      (runSchedule w repo name (spawn fs tr views) sched).exit = none ∧
      allDone (runSchedule w repo name (spawn fs tr views) sched) = true ∧
      (runRepository w repo sched fs).fs
        = (runSchedule w repo name (spawn fs tr views) sched).fs ∧
      (runRepository w repo sched fs).trace
        = (runSchedule w repo name (spawn fs tr views) sched).trace := by
  unfold runRepository at h ⊢
  cases hs : setup w repo with
  | mk tr r =>
    cases r with
    | error e => rw [hs] at h; simp at h
    | ok nv =>
      obtain ⟨name, views⟩ := nv
      rw [hs] at h
      simp only at h ⊢
      refine ⟨name, views, tr, rfl, ?_⟩
      cases he : (runSchedule w repo name (spawn fs tr views) sched).exit with
      | some e => rw [he] at h; simp at h
      | none =>
        rw [he] at h
        simp only at h ⊢
        cases hd : allDone (runSchedule w repo name (spawn fs tr views) sched) with
        | false => rw [hd] at h; simp at h
        | true => simp

/-- The files after a run that is done, for releases that are separate: the
versioned file of every release exists, the alias file holds the bytes of the
versioned file of the release flagged latest, and nothing else was created. -/
theorem run_done_files (w : World) (repo : ConfigRepository) (name : String)
    (views : List ReleaseShortView) (fs : FileSystem) (tr0 : List Event)
    (hsep : Separate views) (sched : List Nat)
    (he : (runSchedule w repo name (spawn fs tr0 views) sched).exit = none)
    (hd : allDone (runSchedule w repo name (spawn fs tr0 views) sched) = true) :
    (∀ v ∈ views, ∃ data,
      readFile (runSchedule w repo name (spawn fs tr0 views) sched).fs
        (versionedFileName name v.TagName) = some data ∧
      (v.IsLatest = true →
        readFile (runSchedule w repo name (spawn fs tr0 views) sched).fs
          (aliasFileName name) = some data)) ∧
    (∀ f, (readFile (runSchedule w repo name (spawn fs tr0 views) sched).fs f).isSome = true →
      (readFile fs f).isSome = true ∨
      f ∈ (views.map fun v => versionedFileName name v.TagName) ∨
      (f = aliasFileName name ∧ ∃ v ∈ views, v.IsLatest = true)) := by
  obtain ⟨hreach, hfiles⟩ := filesOk_runSchedule w repo name views fs tr0 hsep sched
  obtain ⟨hall, hdom⟩ := hfiles he
  simp only [allDone, List.all_eq_true, decide_eq_true_eq] at hd
  constructor
  · intro v hv
    obtain ⟨i, hi⟩ := List.mem_iff_getElem?.mp hv
    obtain ⟨t, ht, hk⟩ := (reach_view w repo name views tr0 _ hreach i).2 v hi
    simp only [keyOf, viewKey, Prod.mk.injEq] at hk
    have hpc := hd t (List.mem_iff_getElem?.mpr ⟨i, ht⟩)
    obtain ⟨_, h2, _, _, h5⟩ := hall i t ht
    rw [hpc, hk.2.1] at h2
    rw [hpc, hk.2.2] at h5
    exact ⟨t.buf, h2 (by simp [Pc.rank]), fun hl => h5 (by simp [Pc.rank]) hl⟩
  · intro f hf
    rcases hdom f hf with h0 | ⟨i, t, ht, hc⟩
    · exact Or.inl h0
    · right
      obtain ⟨v, hv, hk⟩ := (reach_view w repo name views tr0 _ hreach i).1 t ht
      simp only [keyOf, viewKey, Prod.mk.injEq] at hk
      have hmem : v ∈ views := List.mem_iff_getElem?.mpr ⟨i, hv⟩
      rcases hc with ⟨h1, _⟩ | ⟨h1, _, h3⟩
      · left
        rw [h1, hk.2.1]
        exact List.mem_map.mpr ⟨v, hmem, rfl⟩
      · right
        exact ⟨h1, v, hmem, by rw [← hk.2.2]; exact h3⟩

/-! ## The files of a repository -/

/-- C2, as the code has it. For every repository whose list of releases has
exactly one entry flagged latest and whose releases have different version
tokens, when the run of the repository is done the versioned files are as
many as the releases, each release has its own, the alias file exists and
holds the bytes of the versioned file of the latest release, and no other file
was created. -/
theorem one_file_per_release_and_alias (w : World) (repo : ConfigRepository)
    (sched : List Nat) (fs : FileSystem) (name : String) (views : List ReleaseShortView)
    (hsetup : (setup w repo).2 = .ok (name, views))
    (hlatest : (views.filter fun v => v.IsLatest).length = 1)
    (htok : (views.map fun v => versionToken v.TagName).Nodup)
    (hdone : (runRepository w repo sched fs).status = .done) :
    (views.map fun v => versionedFileName name v.TagName).dedup.length = views.length ∧
    (∀ v ∈ views,
      (readFile (runRepository w repo sched fs).fs
        (versionedFileName name v.TagName)).isSome = true) ∧
    (∃ v ∈ views, v.IsLatest = true ∧
      (readFile (runRepository w repo sched fs).fs (aliasFileName name)).isSome = true ∧
      readFile (runRepository w repo sched fs).fs (aliasFileName name)
        = readFile (runRepository w repo sched fs).fs (versionedFileName name v.TagName)) ∧
    (∀ f, (readFile (runRepository w repo sched fs).fs f).isSome = true →
      (readFile fs f).isSome = true ∨ f = aliasFileName name ∨
      f ∈ (views.map fun v => versionedFileName name v.TagName)) := by
  obtain ⟨name', views', tr, hs, he, hd, hfs, _⟩ := runRepository_done w repo sched fs hdone
  rw [hs] at hsetup
  simp only [Except.ok.injEq, Prod.mk.injEq] at hsetup
  obtain ⟨hn, hvs⟩ := hsetup
  subst hn
  subst hvs
  have hsep := separate_of views' htok (by omega)
  obtain ⟨h1, h2⟩ := run_done_files w repo name' views' fs tr hsep sched he hd
  rw [hfs]
  refine ⟨?_, ?_, ?_, ?_⟩
  · rw [List.Nodup.dedup (versioned_nodup name' views' htok), List.length_map]
  · intro v hv
    obtain ⟨data, hdata, _⟩ := h1 v hv
    rw [hdata]
    rfl
  · cases hf : views'.filter (fun v => v.IsLatest) with
    | nil => rw [hf] at hlatest; simp at hlatest
    | cons v rest =>
      have hm : v ∈ views'.filter (fun v => v.IsLatest) := by rw [hf]; simp
      rw [List.mem_filter] at hm
      obtain ⟨data, hdata, halias⟩ := h1 v hm.1
      refine ⟨v, hm.1, hm.2, ?_, ?_⟩
      · rw [halias hm.2]; rfl
      · rw [halias hm.2, hdata]
  · intro f hf
    rcases h2 f hf with h | h | ⟨h, _⟩
    · exact Or.inl h
    · exact Or.inr (Or.inr h)
    · exact Or.inr (Or.inl h)

/-- The two releases of `org/tool` in the world where every call succeeds. -/
theorem one_file_per_release_and_alias_witness :
    (toolViews.map fun v => versionedFileName "tool" v.TagName).dedup.length
      = toolViews.length ∧
    (∀ v ∈ toolViews,
      (readFile (runRepository (okWorld toolViews) toolRepo oneAfterTheOther []).fs
        (versionedFileName "tool" v.TagName)).isSome = true) ∧
    (∃ v ∈ toolViews, v.IsLatest = true ∧
      (readFile (runRepository (okWorld toolViews) toolRepo oneAfterTheOther []).fs
        (aliasFileName "tool")).isSome = true ∧
      readFile (runRepository (okWorld toolViews) toolRepo oneAfterTheOther []).fs
          (aliasFileName "tool")
        = readFile (runRepository (okWorld toolViews) toolRepo oneAfterTheOther []).fs
          (versionedFileName "tool" v.TagName)) ∧
    (∀ f, (readFile (runRepository (okWorld toolViews) toolRepo oneAfterTheOther []).fs
        f).isSome = true →
      (readFile [] f).isSome = true ∨ f = aliasFileName "tool" ∨
      f ∈ (toolViews.map fun v => versionedFileName "tool" v.TagName)) :=
  one_file_per_release_and_alias (okWorld toolViews) toolRepo oneAfterTheOther [] "tool"
    toolViews rfl (by decide) (by decide) (by decide)

/-- C2 fails as stated: the tags `v1.2.3` and `v123` have the same version
token, so the two goroutines write the same versioned file; the run is done
with one release flagged latest, two releases and one versioned file. -/
theorem same_digits_share_a_file :
    (sameDigitsViews.filter fun v => v.IsLatest).length = 1 ∧
    sameDigitsViews.length = 2 ∧
    (runRepository (okWorld sameDigitsViews) toolRepo oneAfterTheOther []).status = .done ∧
    (runRepository (okWorld sameDigitsViews) toolRepo oneAfterTheOther []).fs.map Prod.fst
      = ["./Formula/tool.rb", "./Formula/tool@123.rb"] ∧
    (sameDigitsViews.map fun v => versionedFileName "tool" v.TagName).dedup.length = 1 := by
  refine ⟨by decide, by decide, by decide, by decide, by decide⟩

/-- What a setup that succeeded has computed. -/
theorem setup_ok_inv (w : World) (repo : ConfigRepository) (tr : List Event) (name : String)
    (views : List ReleaseShortView) (h : setup w repo = (tr, .ok (name, views))) :
    lastSegment repo.Repository = some name ∧
    views = (w.unmarshalShortViews (w.ghReleaseList repo.Repository).stdout).1.filterMap id ∧
    tr = [Event.releaseList repo.Repository] := by
  unfold setup at h
  split at h
  · simp at h
  rename_i cfn hcfn
  split at h
  · simp at h
  simp only [] at h
  split at h
  · simp at h
  split at h
  · simp at h
  split at h
  · simp at h
  split at h
  · simp at h
  · simp at h
  · simp only [Prod.mk.injEq, Except.ok.injEq] at h
    obtain ⟨h1, h2, h3⟩ := h
    exact ⟨by rw [hcfn, h2], h3.symm, h1.symm⟩

/-- C8. The versioned file is `./Formula/<short name>@<version token>.rb` and
the alias file `./Formula/<short name>.rb`, where the version token is the
digits of the tag and the short name is the last segment of the repository
name: taking it never indexes out of range, it has no `/` in it and the
repository name ends with it, after a `/` when something stands before it. For
`org/tool` with the releases `v1.0.0` (not latest) and `v2.0.0` (latest), a
run that is done has created exactly `tool@100.rb`, `tool@200.rb` and
`tool.rb`, and `tool.rb` holds the bytes of `tool@200.rb`. -/
theorem output_file_names :
    (∀ configFileName tagName : String,
      versionedFileName configFileName tagName
          = "./Formula/" ++ configFileName ++ "@"
              ++ String.mk (tagName.data.filter isDigit) ++ ".rb" ∧
      aliasFileName configFileName = "./Formula/" ++ configFileName ++ ".rb") ∧
    (∀ repository : String, ∃ name, lastSegment repository = some name ∧ '/' ∉ name.data ∧
      ∃ pre, repository.data = pre ++ name.data ∧ (pre = [] ∨ ∃ q, pre = q ++ ['/'])) ∧
    (∀ (w : World) (repo : ConfigRepository) (sched : List Nat) (v1 v2 : ReleaseShortView),
      repo.Repository = "org/tool" →
      (w.unmarshalShortViews (w.ghReleaseList "org/tool").stdout).1 = [some v1, some v2] →
      v1.TagName = "v1.0.0" → v1.IsLatest = false →
      v2.TagName = "v2.0.0" → v2.IsLatest = true →
      (runRepository w repo sched []).status = .done →
      (∀ f, (readFile (runRepository w repo sched []).fs f).isSome = true ↔
        f = "./Formula/tool@100.rb" ∨ f = "./Formula/tool@200.rb" ∨ f = "./Formula/tool.rb") ∧
      readFile (runRepository w repo sched []).fs "./Formula/tool.rb"
        = readFile (runRepository w repo sched []).fs "./Formula/tool@200.rb") := by
  refine ⟨?_, lastSegment_spec, ?_⟩
  · intro configFileName tagName
    have h : versionToken tagName = String.mk (tagName.data.filter isDigit) := by
      rw [← versionToken_data]
    exact ⟨by rw [versionedFileName, h], rfl⟩
  · intro w repo sched v1 v2 hrepo hlist ht1 hl1 ht2 hl2 hdone
    obtain ⟨name, views, tr, hs, he, hd, hfs, _⟩ := runRepository_done w repo sched [] hdone
    obtain ⟨hname, hviews, _⟩ := setup_ok_inv w repo tr name views hs
    rw [hrepo] at hname hviews
    rw [hlist] at hviews
    simp only [List.filterMap_cons, id, List.filterMap_nil] at hviews
    have hn : name = "tool" := by
      have : lastSegment "org/tool" = some "tool" := by decide
      rw [this] at hname
      exact (Option.some.inj hname).symm
    subst hviews
    subst hn
    have hsep : Separate [v1, v2] := by
      apply separate_of
      · simp only [List.map_cons, List.map_nil, ht1, ht2]
        decide
      · simp [List.filter, hl1, hl2]
    obtain ⟨h1, h2⟩ := run_done_files w repo "tool" [v1, v2] [] tr hsep sched he hd
    have e1 : versionedFileName "tool" "v1.0.0" = "./Formula/tool@100.rb" := by decide
    have e2 : versionedFileName "tool" "v2.0.0" = "./Formula/tool@200.rb" := by decide
    have e3 : aliasFileName "tool" = "./Formula/tool.rb" := by decide
    obtain ⟨d1, hd1, _⟩ := h1 v1 (by simp)
    obtain ⟨d2, hd2, ha2⟩ := h1 v2 (by simp)
    rw [ht1, e1] at hd1
    rw [ht2, e2] at hd2
    have ha := ha2 hl2
    rw [e3] at ha
    rw [hfs]
    refine ⟨fun f => ⟨fun hf => ?_, fun hf => ?_⟩, by rw [ha, hd2]⟩
    · rcases h2 f hf with h | h | ⟨h, _⟩
      · simp [readFile] at h
      · simp only [List.map_cons, List.map_nil, ht1, ht2, e1, e2, List.mem_cons,
          List.mem_singleton, List.not_mem_nil, or_false] at h
        rcases h with h | h
        · exact Or.inl h
        · exact Or.inr (Or.inl h)
      · rw [e3] at h
        exact Or.inr (Or.inr h)
    · rcases hf with h | h | h <;> rw [h]
      · rw [hd1]; rfl
      · rw [hd2]; rfl
      · rw [ha]; rfl

/-- The run of `org/tool` in the world where every call succeeds. -/
theorem output_file_names_witness :
    (∀ f, (readFile (runRepository (okWorld toolViews) toolRepo oneAfterTheOther []).fs
        f).isSome = true ↔
      f = "./Formula/tool@100.rb" ∨ f = "./Formula/tool@200.rb" ∨ f = "./Formula/tool.rb") ∧
    readFile (runRepository (okWorld toolViews) toolRepo oneAfterTheOther []).fs
        "./Formula/tool.rb"
      = readFile (runRepository (okWorld toolViews) toolRepo oneAfterTheOther []).fs
        "./Formula/tool@200.rb" :=
  output_file_names.2.2 (okWorld toolViews) toolRepo oneAfterTheOther
    (mkView "v1.0.0" "v1.0.0" false) (mkView "v2.0.0" "v2.0.0" true)
    rfl rfl rfl rfl rfl rfl (by decide)

/-- A repository without releases. -/
theorem no_latest_fails_before_spawn_witness :
    ∃ e, (setup (okWorld []) toolRepo).2 = .error e ∧
      (runRepository (okWorld []) toolRepo oneAfterTheOther []).status = .exited e ∧
      (runRepository (okWorld []) toolRepo oneAfterTheOther []).fs = [] ∧
      (∀ i rel r, Event.releaseView i rel r ∉
        (runRepository (okWorld []) toolRepo oneAfterTheOther []).trace) ∧
      (∀ i url, Event.httpGet i url ∉
        (runRepository (okWorld []) toolRepo oneAfterTheOther []).trace) ∧
      (∀ i f, Event.create i f ∉
        (runRepository (okWorld []) toolRepo oneAfterTheOther []).trace) :=
  no_latest_fails_before_spawn (okWorld []) toolRepo oneAfterTheOther [] (Or.inl rfl)

/-- The first release in the world where every view decodes to an empty URL. -/
theorem empty_url_task_fails_witness :
    (runSchedule emptyUrlWorld toolRepo "tool" (spawn [] [] toolViews)
        (List.replicate 5 0)).exit = some (.fatal "TarballUrl is empty") ∧
    (runSchedule emptyUrlWorld toolRepo "tool" (spawn [] [] toolViews)
        (List.replicate 5 0)).fs = [] :=
  (empty_url_task_fails emptyUrlWorld toolRepo "tool" toolViews [] [] 0
    (mkView "v1.0.0" "v1.0.0" false) rfl rfl rfl).2

/-! ## `WriteFile` and the loop over the repositories -/

/-- The three steps of `WriteFile` taken one right after the other do what the
function does: the same files and the same end of the process. -/
theorem WriteFile_steps (w : World) (repo : ConfigRepository) (name : String) (i : Nat)
    (t : TaskState) (p : Proc) (he : p.exit = none) (ht : p.tasks[i]? = some t)
    (hpc : t.pc = .createVersioned) :
    (runSchedule w repo name p [i, i, i]).fs
      = (WriteFile w p.fs (versionedFileName name t.view.TagName) t.buf).1 ∧
    (runSchedule w repo name p [i, i, i]).exit
      = (WriteFile w p.fs (versionedFileName name t.view.TagName) t.buf).2 := by
  have hi : i < p.tasks.length := by
    rcases Nat.lt_or_ge i p.tasks.length with h | h
    · exact h
    · rw [List.getElem?_eq_none h] at ht; cases ht
  simp only [runSchedule, List.foldl, WriteFile]
  rw [Proc.step_eq w repo name p i t he ht]
  cases hc : w.osCreate (versionedFileName name t.view.TagName) with
  | some e =>
    simp [stepTask, hpc, stepCreate, hc, Proc.fatal, Proc.step]
  | none =>
    cases hw : (w.fileWrite (versionedFileName name t.view.TagName) t.buf).2 with
    | some e =>
      simp [stepTask, hpc, stepCreate, stepWrite, hc, hw, Proc.fatal, Proc.setTask, Proc.step,
        he, hi]
    | none =>
      cases hcl : w.fileClose (versionedFileName name t.view.TagName) with
      | some e =>
        simp [stepTask, hpc, stepCreate, stepWrite, stepClose, hc, hw, hcl, Proc.fatal,
          Proc.setTask, Proc.step, he, hi]
      | none =>
        simp [stepTask, hpc, stepCreate, stepWrite, stepClose, hc, hw, hcl, Proc.fatal,
          Proc.setTask, Proc.step, he, hi]

/-- When the run of a repository ends the process, the loop stops there: the
repositories after it leave no call in the log and no file. -/
theorem mainLoop_exited (w : World) (repo : ConfigRepository) (repos : List (Option ConfigRepository))
    (sched : List Nat) (scheds : List (List Nat)) (fs : FileSystem) (tr : List Event) (e : Exit)
    (h : (runRepository w repo sched fs).status = .exited e) :
    mainLoop w (some repo :: repos) (sched :: scheds) fs tr
      = ⟨(runRepository w repo sched fs).fs, tr ++ (runRepository w repo sched fs).trace,
          .exited e⟩ := by
  simp [mainLoop, h]

/-! ## Runs in which every call succeeds -/

theorem runSchedule_append (w : World) (repo : ConfigRepository) (name : String) (p : Proc)
    (a b : List Nat) :
    runSchedule w repo name p (a ++ b)
      = runSchedule w repo name (runSchedule w repo name p a) b := by
  simp [runSchedule, List.foldl_append]

theorem sequential_succ (n : Nat) : sequential (n + 1) = sequential n ++ List.replicate 14 n := by
  simp [sequential, List.range_succ, List.flatMap_append]

/-- A goroutine all of whose calls succeed returns after 14 steps of its own,
whatever the other goroutines have done before. -/
theorem run_one_goroutine (w : World) (repo : ConfigRepository) (name : String) (i : Nat)
    (v : ReleaseShortView) (p : Proc) (he : p.exit = none)
    (ht : p.tasks[i]? = some (newTask v))
    (hView : (w.ghReleaseView v.Name repo.Repository).err = none)
    (m : ReleaseView)
    (hDecode : w.unmarshalView (w.ghReleaseView v.Name repo.Repository).stdout = (some m, none))
    (hUrl : m.TarballUrl ≠ "")
    (hHash : (GetUrlFileHashSHA256 w m.TarballUrl).2 = none)
    (hExec : ∀ view, (w.Execute repo.TemplateFileName view).2 = none)
    (hCreate : ∀ f, w.osCreate f = none)
    (hWrite : ∀ f d, (w.fileWrite f d).2 = none)
    (hClose : ∀ f, w.fileClose f = none) :
    (runSchedule w repo name p (List.replicate 14 i)).exit = none ∧
    ∃ t, (runSchedule w repo name p (List.replicate 14 i)).tasks = p.tasks.set i t ∧
      t.pc = .done := by
  have hi : i < p.tasks.length := by
    rcases Nat.lt_or_ge i p.tasks.length with h | h
    · exact h
    · rw [List.getElem?_eq_none h] at ht; cases ht
  have hd1 : (w.unmarshalView (w.ghReleaseView v.Name repo.Repository).stdout).1 = some m := by
    rw [hDecode]
  have hd2 : (w.unmarshalView (w.ghReleaseView v.Name repo.Repository).stdout).2 = none := by
    rw [hDecode]
  cases hl : v.IsLatest <;>
  simp [List.replicate, runSchedule, Proc.step, stepTask, stepCreate, stepWrite, stepClose,
    Proc.setTask, Proc.fatal, newTask, he, ht, hi, hView, hd1, hd2, hUrl, hHash, hExec,
    hCreate, hWrite, hClose, hl] <;>
  exact ⟨_, rfl, rfl⟩

/-- When every call succeeds, the goroutines run one after the other all
return and the process has not ended. -/
theorem sequential_all_return (w : World) (repo : ConfigRepository) (name : String)
    (views : List ReleaseShortView) (fs : FileSystem) (tr0 : List Event)
    (hall : ∀ v ∈ views, (w.ghReleaseView v.Name repo.Repository).err = none ∧
      ∃ m, w.unmarshalView (w.ghReleaseView v.Name repo.Repository).stdout = (some m, none) ∧
        m.TarballUrl ≠ "" ∧ (GetUrlFileHashSHA256 w m.TarballUrl).2 = none)
    (hExec : ∀ view, (w.Execute repo.TemplateFileName view).2 = none)
    (hCreate : ∀ f, w.osCreate f = none)
    (hWrite : ∀ f d, (w.fileWrite f d).2 = none)
    (hClose : ∀ f, w.fileClose f = none) :
    ∀ k, k ≤ views.length →
      (runSchedule w repo name (spawn fs tr0 views) (sequential k)).exit = none ∧
      (runSchedule w repo name (spawn fs tr0 views) (sequential k)).tasks.length
        = views.length ∧
      (∀ j, j < k → ∃ t,
        (runSchedule w repo name (spawn fs tr0 views) (sequential k)).tasks[j]? = some t ∧
        t.pc = .done) ∧
      (∀ j, k ≤ j →
        (runSchedule w repo name (spawn fs tr0 views) (sequential k)).tasks[j]?
          = (views.map newTask)[j]?) := by
  intro k
  induction k with
  | zero =>
    intro _
    refine ⟨rfl, by simp [sequential, runSchedule, spawn], ?_, ?_⟩
    · intro j hj; omega
    · intro j _; rfl
  | succ k ih =>
    intro hk
    obtain ⟨he, hlen, hdone, hrest⟩ := ih (by omega)
    have hkv : views[k]? = some views[k] := List.getElem?_eq_getElem (by omega)
    have hmem : views[k] ∈ views := List.getElem_mem _
    have htk : (runSchedule w repo name (spawn fs tr0 views) (sequential k)).tasks[k]?
        = some (newTask views[k]) := by
      rw [hrest k (le_refl k), List.getElem?_map, hkv]
      rfl
    obtain ⟨hv1, m, hv2, hv3, hv4⟩ := hall _ hmem
    obtain ⟨he', t, ht', hpc⟩ := run_one_goroutine w repo name k views[k] _ he htk hv1 m hv2
      hv3 hv4 hExec hCreate hWrite hClose
    rw [sequential_succ, runSchedule_append]
    refine ⟨he', by rw [ht', List.length_set, hlen], ?_, ?_⟩
    · intro j hj
      by_cases hjk : j = k
      · subst hjk
        exact ⟨t, by rw [ht', List.getElem?_set_self (by omega)], hpc⟩
      · rw [ht', List.getElem?_set_ne (fun h => hjk h.symm)]
        exact hdone j (by omega)
    · intro j hj
      rw [ht', List.getElem?_set_ne (by omega)]
      exact hrest j (by omega)

/-- When every call of the run of a repository succeeds, the run is done
under the schedule that lets the goroutines run one after the other. -/
theorem all_succeed_reaches_done (w : World) (repo : ConfigRepository) (fs : FileSystem)
    (name : String) (views : List ReleaseShortView) (tr : List Event)
    (hsetup : setup w repo = (tr, .ok (name, views)))
    (hall : ∀ v ∈ views, (w.ghReleaseView v.Name repo.Repository).err = none ∧
      ∃ m, w.unmarshalView (w.ghReleaseView v.Name repo.Repository).stdout = (some m, none) ∧
        m.TarballUrl ≠ "" ∧ (GetUrlFileHashSHA256 w m.TarballUrl).2 = none)
    (hExec : ∀ view, (w.Execute repo.TemplateFileName view).2 = none)
    (hCreate : ∀ f, w.osCreate f = none)
    (hWrite : ∀ f d, (w.fileWrite f d).2 = none)
    (hClose : ∀ f, w.fileClose f = none) :
    (runRepository w repo (sequential views.length) fs).status = .done := by
  obtain ⟨he, hlen, hdone, _⟩ := sequential_all_return w repo name views fs tr hall hExec
    hCreate hWrite hClose views.length (le_refl _)
  have hd : allDone (runSchedule w repo name (spawn fs tr views) (sequential views.length))
      = true := by
    simp only [allDone, List.all_eq_true, decide_eq_true_eq]
    intro t htm
    obtain ⟨j, hj⟩ := List.mem_iff_getElem?.mp htm
    have hjl : j < views.length := by
      rcases Nat.lt_or_ge j views.length with h | h
      · exact h
      · rw [List.getElem?_eq_none (by omega)] at hj; cases hj
    obtain ⟨t', ht', hpc⟩ := hdone j hjl
    rw [hj] at ht'
    cases ht'
    exact hpc
  simp only [runRepository, hsetup]
  rw [he, hd]
  rfl

end FormulaGen
